import Mathlib

set_option maxHeartbeats 1000000

/-!
Shallow embedding of the `gff_iterator` package (GFF/GTF parsing utilities).
Strings are modelled as lists of characters, Python exceptions as an explicit
error type, and Python `float` values as exact decimals in a canonical
mantissa/exponent form (the decimal literals the codec reads and writes are
re-parsed and re-printed exactly, mirroring Python's repr round-trip
guarantee for floats).
-/

abbrev Str := List Char

/-- Python exception kinds that the source can raise. -/
inductive PyErr where
  | assertionError
  | valueError
  | indexError
  | typeError
  | attributeError
deriving DecidableEq, Repr

/-- The characters Python's default `str.strip()` removes. -/
def pyWs (c : Char) : Bool :=
  c = ' ' || c = '\t' || c = '\n' || c = '\r' || c = '\x0b' || c = '\x0c'

/-- Python `s.split(sep)` for a one-character separator; keeps empty chunks. -/
def splitCh (sep : Char) : Str → List Str
  | [] => [[]]
  | c :: cs =>
    if c = sep then [] :: splitCh sep cs
    else
      match splitCh sep cs with
      | [] => [[c]]
      | h :: t => (c :: h) :: t

/-- Drop characters satisfying `p` from the end of a list. -/
def dropTail (p : Char → Bool) : Str → Str
  | [] => []
  | c :: cs =>
    match dropTail p cs with
    | [] => if p c then [] else [c]
    | r => c :: r

/-- Python `s.strip()` (default whitespace). -/
def trimWs (l : Str) : Str :=
  dropTail pyWs (l.dropWhile pyWs)

/-- Python `s.strip('"')`: remove all double quotes from both ends. -/
def stripQuotes (l : Str) : Str :=
  dropTail (fun c => c = '"') (l.dropWhile (fun c => c = '"'))

/-- Python `s.isdigit()` restricted to ASCII digits. -/
def pyIsdigit (l : Str) : Bool :=
  !l.isEmpty && l.all Char.isDigit

/-- Numeric value of an ASCII digit character. -/
def digVal (c : Char) : Nat := c.toNat - '0'.toNat

/-- The ASCII digit character for a value `0 ≤ d ≤ 9`. -/
def digChr (d : Nat) : Char := Char.ofNat ('0'.toNat + d)

/-- Natural number denoted by a digit string (most significant first). -/
def natFrom (ds : Str) : Nat :=
  ds.foldl (fun a c => 10 * a + digVal c) 0

/-- Fuelled decimal digit emitter (fuel keeps the recursion structural). -/
def digitsGo : Nat → Nat → Str → Str
  | 0, _, acc => acc
  | fuel + 1, n, acc =>
    if n < 10 then digChr n :: acc
    else digitsGo fuel (n / 10) (digChr (n % 10) :: acc)

/-- The decimal digits of a natural number, mirroring Python `str(n)` for `n ≥ 0`. -/
def digitsOf (n : Nat) : Str := digitsGo (n + 1) n []

/-- Python `str(n)` for an integer. -/
def intStr (n : Int) : Str :=
  if n < 0 then '-' :: digitsOf n.natAbs else digitsOf n.natAbs

/-- Python `int(s)`: optional surrounding whitespace, optional sign, digits. -/
def pyIntParse (s : Str) : Option Int :=
  let t := trimWs s
  match t with
  | '-' :: r => if pyIsdigit r then some (-(natFrom r : Int)) else none
  | '+' :: r => if pyIsdigit r then some ((natFrom r : Int)) else none
  | r => if pyIsdigit r then some ((natFrom r : Int)) else none

/-- A Python `float` value: an exact decimal `m * 10 ^ e` in canonical form
(`m` not divisible by 10 unless zero), or an infinity, or a NaN. -/
inductive PyFloat where
  | fin (m : Int) (e : Int)
  | inf (neg : Bool)
  | nan
deriving DecidableEq, Repr

/-- A finite float is canonical when its mantissa carries no trailing zeros. -/
def canonB : PyFloat → Bool
  | .fin m e => if m = 0 then e = 0 else ¬ m % 10 = 0
  | _ => true

/-- Fuelled canonicaliser: strip factors of 10 from the mantissa. -/
def canonGo : Nat → Int → Int → PyFloat
  | 0, m, e => .fin m e
  | fuel + 1, m, e =>
    if m = 0 then .fin 0 0
    else if m % 10 = 0 then canonGo fuel (m / 10) (e + 1)
    else .fin m e

/-- Canonical finite float with value `m * 10 ^ e`. -/
def canon (m e : Int) : PyFloat := canonGo (m.natAbs + 1) m e

/-- Print the magnitude `n * 10 ^ e` the way Python's positional float repr
does (always with a decimal point, e.g. `250.0`, `3.5`, `0.05`). -/
def natPointStr (n : Nat) (e : Int) : Str :=
  if 0 ≤ e then digitsOf n ++ List.replicate e.toNat '0' ++ ['.', '0']
  else if (-e).toNat < (digitsOf n).length then
    (digitsOf n).take ((digitsOf n).length - (-e).toNat)
      ++ '.' :: (digitsOf n).drop ((digitsOf n).length - (-e).toNat)
  else '0' :: '.' :: List.replicate ((-e).toNat - (digitsOf n).length) '0'
      ++ digitsOf n

/-- Python `str(f)` for a float value (positional decimal form). -/
def floatPrint : PyFloat → Str
  | .fin m e => if m < 0 then '-' :: natPointStr m.natAbs e else natPointStr m.natAbs e
  | .inf neg => if neg then '-' :: ['i', 'n', 'f'] else ['i', 'n', 'f']
  | .nan => ['n', 'a', 'n']

/-- Longest digit run at the front of a list, and the remainder. -/
def spanDigits : Str → Str × Str
  | [] => ([], [])
  | c :: cs =>
    if c.isDigit then
      let (ds, r) := spanDigits cs
      (c :: ds, r)
    else ([], c :: cs)

/-- Case-insensitive keyword comparison (for `inf` / `nan` literals). -/
def lowEq (s : Str) (kw : Str) : Bool :=
  s.map Char.toLower == kw

/-- Core of Python `float(s)` after whitespace stripping and sign splitting:
digits, optional fraction, optional exponent; the whole token must be consumed. -/
def floatMantissa (neg : Bool) (b : Str) : Option PyFloat :=
  let ips := spanDigits b
  let fps :=
    match ips.2 with
    | '.' :: r => spanDigits r
    | _ => ([], ips.2)
  if ips.1.isEmpty && fps.1.isEmpty then none
  else
    let mag : Int := (natFrom (ips.1 ++ fps.1) : Int)
    let m : Int := if neg then -mag else mag
    match fps.2 with
    | [] => some (canon m (-(fps.1.length : Int)))
    | c :: r3 =>
      if c = 'e' || c = 'E' then
        let er :=
          match r3 with
          | '-' :: r => (true, r)
          | '+' :: r => (false, r)
          | r => (false, r)
        let ed := spanDigits er.2
        if ed.1.isEmpty || !ed.2.isEmpty then none
        else
          let ex : Int := if er.1 then -(natFrom ed.1 : Int) else (natFrom ed.1 : Int)
          some (canon m (ex - (fps.1.length : Int)))
      else none

/-- Split an optional leading sign off a float literal. -/
def signSplit (t : Str) : Bool × Str :=
  match t with
  | '-' :: r => (true, r)
  | '+' :: r => (false, r)
  | r => (false, r)

/-- Python `float(s)`: strip whitespace, optional sign, then either an
`inf`/`infinity`/`nan` keyword (case-insensitive) or a decimal literal. -/
def floatParse (s : Str) : Option PyFloat :=
  let sb := signSplit (trimWs s)
  if lowEq sb.2 ['i', 'n', 'f'] || lowEq sb.2 ['i', 'n', 'f', 'i', 'n', 'i', 't', 'y'] then
    some (.inf sb.1)
  else if lowEq sb.2 ['n', 'a', 'n'] then some .nan
  else floatMantissa sb.1 sb.2

/-- A decoded attribute value: quoted text is a string, unquoted tokens
become `int` / `float` when they parse as such, otherwise strings. -/
inductive AttrValue where
  | str (s : Str)
  | int (n : Int)
  | flt (f : PyFloat)
deriving DecidableEq, Repr

/-- `attribute_to_value`: convert a raw attribute token `a` to a typed value.
Indexing the first character of an empty token raises `IndexError`. -/
def attributeToValue (a : Str) : Except PyErr AttrValue :=
  match a with
  | [] => .error .indexError
  | c :: rest =>
    if c = '"' then .ok (.str (stripQuotes a))
    else if pyIsdigit a || (c = '-' && pyIsdigit rest) then
      .ok (.int (match a with
        | '-' :: r => -(natFrom r : Int)
        | r => (natFrom r : Int)))
    else
      match floatParse a with
      | some f => .ok (.flt f)
      | none => .ok (.str a)

/-- `value_to_attribute`: numbers print bare, strings are wrapped in quotes. -/
def valueToAttribute : AttrValue → Str
  | .int n => intStr n
  | .flt f => floatPrint f
  | .str s => '"' :: (s ++ ['"'])

/-- An attribute map: key/value pairs in insertion order. -/
abbrev AttrMap := List (Str × AttrValue)

/-- `OrderedDict` insertion: an existing key keeps its position and takes the
new value, a new key is appended. -/
def odInsert {α : Type} : List (Str × α) → Str × α → List (Str × α)
  | [], p => [p]
  | (k', v') :: t, (k, v) =>
    if k' = k then (k', v) :: t else (k', v') :: odInsert t (k, v)

/-- Left-to-right fail-fast traversal (a Python list comprehension over a
fallible body). -/
def exMapM {α β : Type} (g : α → Except PyErr β) : List α → Except PyErr (List β)
  | [] => .ok []
  | a :: t => do
    let b ← g a
    let bs ← exMapM g t
    .ok (b :: bs)

/-- Extract the raw key/token pair of one column-9 segment: the first two
space-chunks; an `IndexError` when the second chunk is missing. -/
def segPair (f : Str) : Except PyErr (Str × Str) :=
  match splitCh ' ' f with
  | k :: v :: _ => .ok (k, v)
  | _ => .error .indexError

/-- `column_9_dict`: split on `;`, strip, drop empty segments, take the first
two space-chunks of each segment as a raw key/token pair, build an ordered
dict, then convert each stored token to a typed value. -/
def column9Dict (col9 : Str) : Except PyErr AttrMap := do
  let fields := (splitCh ';' col9).map trimWs
  let kept := fields.filter (fun f => !f.isEmpty)
  let pairs ← exMapM segPair kept
  let raw := pairs.foldl odInsert []
  exMapM (fun p => (attributeToValue p.2).map (fun v => (p.1, v))) raw

/-- Join the rendered `key value` pairs of a non-empty attribute map. -/
def joinPairs : List Str → Str
  | [] => []
  | [p] => p
  | p :: t => p ++ ';' :: ' ' :: joinPairs t

/-- The attribute string built by `to_string`: pairs joined by a semicolon and
space, with a trailing semicolon; the empty map renders as the empty string. -/
def attrString (m : AttrMap) : Str :=
  if m.isEmpty then []
  else joinPairs (m.map (fun p => p.1 ++ ' ' :: valueToAttribute p.2)) ++ [';']

/-- The score column: a parsed float or the literal text left unconverted. -/
inductive ScoreV where
  | flt (f : PyFloat)
  | raw (s : Str)
deriving DecidableEq, Repr

/-- The frame column: a parsed integer or the literal text left unconverted. -/
inductive FrameV where
  | int (n : Int)
  | raw (s : Str)
deriving DecidableEq, Repr

/-- The record for one GFF line: the nine columns of `get_fields`. -/
structure GffRecord where
  seqname : Str
  source : Str
  feature : Str
  start : Int
  endp : Int
  score : ScoreV
  strand : Str
  frame : FrameV
  attributes : AttrMap
deriving DecidableEq, Repr

/-- The coupled score/frame conversion of `get_fields`: one `try` block, so a
failing float conversion of the score skips the frame conversion too. -/
def scoreFrame (ss fs : Str) : ScoreV × FrameV :=
  match floatParse ss with
  | none => (.raw ss, .raw fs)
  | some f =>
    (.flt f,
      match pyIntParse fs with
      | none => .raw fs
      | some n => .int n)

/-- `get_fields`: split the line on tabs, strip each field, assert that there
are nine (an `AssertionError` otherwise), decode column 9, convert start/end
to integers (a `ValueError` on failure), then attempt the coupled score/frame
conversion. -/
def getFields (line : Str) : Except PyErr GffRecord :=
  let row := (splitCh '\t' line).map trimWs
  if row.length = 9 then do
    let attrs ← column9Dict (row.getD 8 [])
    let s ←
      match pyIntParse (row.getD 3 []) with
      | some v => Except.ok v
      | none => Except.error PyErr.valueError
    let e ←
      match pyIntParse (row.getD 4 []) with
      | some v => Except.ok v
      | none => Except.error PyErr.valueError
    let (sc, fr) := scoreFrame (row.getD 5 []) (row.getD 7 [])
    Except.ok
      { seqname := row.getD 0 [], source := row.getD 1 [], feature := row.getD 2 []
        start := s, endp := e, score := sc, strand := row.getD 6 [], frame := fr
        attributes := attrs }
  else .error .assertionError

/-- Render a score column value (`str.format` of the stored object). -/
def scoreStr : ScoreV → Str
  | .flt f => floatPrint f
  | .raw s => s

/-- Render a frame column value (`str.format` of the stored object). -/
def frameStr : FrameV → Str
  | .int n => intStr n
  | .raw s => s

/-- `to_string`: join the nine columns with tabs, rendering column 9 with the
attribute encoder. -/
def toLine (r : GffRecord) : Str :=
  r.seqname ++ '\t' :: r.source ++ '\t' :: r.feature ++ '\t' :: intStr r.start
    ++ '\t' :: intStr r.endp ++ '\t' :: scoreStr r.score ++ '\t' :: r.strand
    ++ '\t' :: frameStr r.frame ++ '\t' :: attrString r.attributes

/-- The Python `==` on typed attribute values: ints and floats compare by
numeric value, NaN is unequal to itself, strings compare by content. -/
def pyEqVal : AttrValue → AttrValue → Bool
  | .str a, .str b => a == b
  | .int a, .int b => a == b
  | .flt a, .flt b =>
    match a, b with
    | .fin m e, .fin m' e' => m == m' && e == e'
    | .inf s, .inf s' => s == s'
    | _, _ => false
  | .int a, .flt f | .flt f, .int a =>
    match f with
    | .fin m e => decide (0 ≤ e) && m * 10 ^ e.toNat == a
    | _ => false
  | _, _ => false

/-- Python `==` on optional attribute values (`None == None` is true). -/
def pyOptEq : Option AttrValue → Option AttrValue → Bool
  | none, none => true
  | some a, some b => pyEqVal a b
  | _, _ => false

/-- A GFF feature: genes and transcripts own an ordered child list, exons and
CDSs are leaves. -/
inductive Feature where
  | gene (d : GffRecord) (children : List Feature)
  | transcript (d : GffRecord) (children : List Feature)
  | exon (d : GffRecord)
  | cds (d : GffRecord)

/-- The record a feature wraps. -/
def featData : Feature → GffRecord
  | .gene d _ => d
  | .transcript d _ => d
  | .exon d => d
  | .cds d => d

/-- The child list of a feature (leaves own none). -/
def featChildren : Feature → List Feature
  | .gene _ cs => cs
  | .transcript _ cs => cs
  | .exon _ => []
  | .cds _ => []

def isGene : Feature → Bool
  | .gene _ _ => true
  | _ => false

def isTranscript : Feature → Bool
  | .transcript _ _ => true
  | _ => false

def isExon : Feature → Bool
  | .exon _ => true
  | _ => false

def isCds : Feature → Bool
  | .cds _ => true
  | _ => false

/-- Attribute lookup with `None` for a missing key (the `KeyError` handler). -/
def attrLookup (m : AttrMap) (k : Str) : Option AttrValue :=
  (m.find? (fun p => p.1 == k)).map (fun p => p.2)

def geneIdKey : Str := "gene_id".data

def transcriptIdKey : Str := "transcript_id".data

/-- The `gene_id` property. -/
def featGeneId (f : Feature) : Option AttrValue :=
  attrLookup (featData f).attributes geneIdKey

/-- The `transcript_id` property. -/
def featTranscriptId (f : Feature) : Option AttrValue :=
  attrLookup (featData f).attributes transcriptIdKey

/-- `make_feature`: dispatch on the feature column; any other kind produces
`None`. -/
def makeFeature (r : GffRecord) : Option Feature :=
  if r.feature = "gene".data then some (.gene r [])
  else if r.feature = "transcript".data then some (.transcript r [])
  else if r.feature = "exon".data then some (.exon r)
  else if r.feature = "CDS".data then some (.cds r)
  else none

/-- The boolean `can_add` predicate of the two container classes; for a `None`
candidate every `isinstance` test is false. -/
def canAddB : Feature → Option Feature → Bool
  | .transcript d _, some c =>
    (isCds c || isExon c)
      && pyOptEq (featTranscriptId c) (attrLookup d.attributes transcriptIdKey)
  | .gene d _, some c =>
    (isTranscript c || isExon c || isCds c)
      && pyOptEq (featGeneId c) (attrLookup d.attributes geneIdKey)
  | _, _ => false

/-- Calling `can_add` as a method: leaves have no such method, so the lookup
raises `AttributeError`; containers return their predicate. -/
def canAddM : Feature → Option Feature → Except PyErr Bool
  | .exon _, _ => .error .attributeError
  | .cds _, _ => .error .attributeError
  | f, c => .ok (canAddB f c)

/-- Append a child without any check (the raw list mutation). -/
def appendChildRaw : Feature → Feature → Feature
  | .gene d cs, c => .gene d (cs ++ [c])
  | .transcript d cs, c => .transcript d (cs ++ [c])
  | f, _ => f

/-- `add_child`: `TypeError` when `can_add` rejects, `AttributeError` when the
receiver is a leaf (no such method); otherwise append the child. -/
def addChild : Feature → Option Feature → Except PyErr Feature
  | .exon _, _ => .error .attributeError
  | .cds _, _ => .error .attributeError
  | f, c =>
    if canAddB f c then
      match c with
      | some cf => .ok (appendChildRaw f cf)
      | none => .error .typeError
    else .error .typeError

/-- `parent.add_child(feature)` where the parent may be `None` (attribute
access on `None` raises `AttributeError`). -/
def pyAdd : Option Feature → Option Feature → Except PyErr Feature
  | none, _ => .error .attributeError
  | some p, c => addChild p c

/-!
The assembler's `hierarchy` list holds aliased objects: each entry above the
bottom was appended to the entry below it when it was pushed, so mutating the
top is visible in its parent. The functional encoding below stores each stack
entry WITHOUT its on-stack child and re-attaches the child into its parent at
pop time, which reproduces exactly the trees the aliased Python objects hold.
The stack head is the innermost (last pushed) entry.
-/

/-- Re-attach a popped stack entry into the entry below it (the child was
already in the parent's list in the Python object graph). -/
def foldTopInto (p top : Option Feature) : Option Feature :=
  match p, top with
  | some pf, some tf => some (appendChildRaw pf tf)
  | _, _ => p

/-- The body of the attachment loop, recursing on the stack below the top. -/
def attachGo (top : Option Feature) (rest : List (Option Feature))
    (cand : Option Feature) : List (Option Feature) × Option (Option Feature) :=
  match pyAdd top cand with
  | .ok _ => (top :: rest, none)
  | .error _ =>
    match rest with
    | [] => ([], some top)
    | p :: t => attachGo (foldTopInto p top) t cand

/-- The attachment loop of `gff_iterator`: try `add_child` on the top entry;
on `TypeError`/`AttributeError` pop it (folding it into its parent) and retry.
Returns the remaining stack and, when the stack ran empty, the last entry
examined (the variable `parent` at loop exit). -/
def attachLoop : List (Option Feature) → Option Feature →
    List (Option Feature) × Option (Option Feature)
  | [], _ => ([], none)
  | top :: rest, cand => attachGo top rest cand

/-- `if parent is not None: yield parent` — a popped `None` placeholder is
not emitted. -/
def emitOf : Option (Option Feature) → List (Option Feature)
  | some (some f) => [some f]
  | _ => []

/-- `line.startswith('#')`. -/
def isCommentLine : Str → Bool
  | c :: _ => c = '#'
  | [] => false

/-- Consume the input lines: skip comments, parse, build the feature, run the
attachment loop, emit when the loop closed the bottom entry, push the new
feature. Returns the final stack and the values emitted along the way. -/
def gffConsume : List Str → List (Option Feature) → List (Option Feature) →
    Except PyErr (List (Option Feature) × List (Option Feature))
  | [], st, out => .ok (st, out)
  | l :: ls, st, out =>
    if isCommentLine l then gffConsume ls st out
    else
      match getFields l with
      | .error e => .error e
      | .ok r =>
        let cand := makeFeature r
        let (st', em) := attachLoop st cand
        gffConsume ls (cand :: st') (out ++ emitOf em)

/-- Collapse a stack into its bottom entry (the object `hierarchy[0]` aliases
the whole chain): fold the current top into its parent repeatedly. -/
def foldGo (c : Option Feature) : List (Option Feature) → Option Feature
  | [] => c
  | p :: t => foldGo (foldTopInto p c) t

/-- The final `yield hierarchy[0]` of a non-empty stack (this one is yielded
even when it is the `None` placeholder). -/
def finishOf (st : List (Option Feature)) : List (Option Feature) :=
  match st with
  | [] => []
  | c :: t => [foldGo c t]

/-- `gff_iterator` over a list of input lines: the sequence of yielded values
(each a feature, or the `None` produced for an unrecognized feature kind). -/
def gffRun (ls : List Str) : Except PyErr (List (Option Feature)) :=
  (gffConsume ls [] []).map (fun p => p.2 ++ finishOf p.1)

mutual
/-- The containment condition of the spec, applied at every node of a tree:
direct children of a gene carry its `gene_id`, direct children of a
transcript carry its `transcript_id` (comparison is Python `==`). -/
def deepOk : Feature → Bool
  | .gene d cs =>
    cs.all (fun c => pyOptEq (featGeneId c) (attrLookup d.attributes geneIdKey))
      && deepOkList cs
  | .transcript d cs =>
    cs.all (fun c =>
      pyOptEq (featTranscriptId c) (attrLookup d.attributes transcriptIdKey))
      && deepOkList cs
  | .exon _ => true
  | .cds _ => true

def deepOkList : List Feature → Bool
  | [] => true
  | c :: t => deepOk c && deepOkList t
end

/-! Concrete input lines for the scenario of the spec's hierarchy section. -/

def lineG1 : Str := "chr1\tsrc\tgene\t1\t100\t.\t+\t.\tgene_id \"G1\";".data

def lineT1 : Str :=
  "chr1\tsrc\ttranscript\t1\t90\t.\t+\t.\tgene_id \"G1\"; transcript_id \"T1\";".data

def lineE1 : Str := "chr1\tsrc\texon\t1\t50\t.\t+\t.\ttranscript_id \"T1\";".data

def lineG2 : Str := "chr1\tsrc\tgene\t200\t300\t.\t+\t.\tgene_id \"G2\";".data

/-- An input line whose feature kind is not recognized by `make_feature`. -/
def lineUnk : Str := "chr1\tsrc\tpromoter\t1\t10\t.\t+\t.\tgene_id \"G1\";".data

def recG1 : GffRecord :=
  { seqname := "chr1".data, source := "src".data, feature := "gene".data
    start := 1, endp := 100, score := .raw ['.'], strand := "+".data
    frame := .raw ['.'], attributes := [("gene_id".data, .str "G1".data)] }

def recT1 : GffRecord :=
  { seqname := "chr1".data, source := "src".data, feature := "transcript".data
    start := 1, endp := 90, score := .raw ['.'], strand := "+".data
    frame := .raw ['.']
    attributes := [("gene_id".data, .str "G1".data),
                   ("transcript_id".data, .str "T1".data)] }

def recE1 : GffRecord :=
  { seqname := "chr1".data, source := "src".data, feature := "exon".data
    start := 1, endp := 50, score := .raw ['.'], strand := "+".data
    frame := .raw ['.'], attributes := [("transcript_id".data, .str "T1".data)] }

def recG2 : GffRecord :=
  { seqname := "chr1".data, source := "src".data, feature := "gene".data
    start := 200, endp := 300, score := .raw ['.'], strand := "+".data
    frame := .raw ['.'], attributes := [("gene_id".data, .str "G2".data)] }

/-- The fully assembled first gene of the scenario. -/
def treeG1 : Feature := .gene recG1 [.transcript recT1 [.exon recE1]]

/-- The spec's `MalformedRecordError` corresponds to the two record-level
failures of `get_fields`: the nine-column assertion and the start/end integer
conversion. Column-9 failures are its `MalformedAttributeError`. -/
def isMalformedRecordErr : PyErr → Bool
  | .assertionError => true
  | .valueError => true
  | _ => false

/-- `deepOk` lifted to the optional features held by the stack. -/
def optDeepOk : Option Feature → Bool
  | none => true
  | some f => deepOk f

/-- The parent `p` would accept the candidate `u` via `add_child`. -/
def canAttach : Option Feature → Option Feature → Bool
  | some pf, some cf => canAddB pf (some cf)
  | _, _ => false

/-- The stack chain invariant: every entry above the bottom was successfully
attached to the entry below it when it was pushed (stack head innermost). -/
def chainOk : List (Option Feature) → Bool
  | u :: p :: t => canAttach p u && chainOk (p :: t)
  | _ => true

/-- A line whose score column is the `.` sentinel while the frame column is a
valid integer literal. -/
def lineC5 : Str := "chr1\tsrc\tgene\t1\t100\t.\t+\t0\tgene_id \"G1\";".data

/-- A nine-field line whose start column is not integer-parseable and whose
column 9 has a segment without a key/value separator. -/
def lineC9 : Str := "a\tb\tc\tx\t5\t.\t+\t.\tbad".data

/-- The conditions under which an attribute key re-splits correctly: nonempty,
free of spaces and semicolons, first character not whitespace. Keys produced
by a successful decode always satisfy this. -/
def goodKey (k : Str) : Prop :=
  k ≠ [] ∧ ' ' ∉ k ∧ ';' ∉ k ∧ (∀ c, k.head? = some c → pyWs c = false)

/-- The conditions under which a decoded value survives re-encoding: string
values are space/semicolon-free and do not begin or end with a double quote
(the encoder's added quotes would otherwise be stripped together with them);
float values are in canonical form. -/
def goodVal : AttrValue → Prop
  | .str s => ' ' ∉ s ∧ ';' ∉ s ∧ (∀ c, s.head? = some c → c ≠ '"')
      ∧ (∀ c, s.getLast? = some c → c ≠ '"')
  | .int _ => True
  | .flt f => canonB f = true

/-- Text column without tabs that survives the field strip unchanged. -/
def textOk (l : Str) : Prop := '\t' ∉ l ∧ trimWs l = l

/-- A well-formed attribute key for a full record round trip: nonempty and
free of whitespace and semicolons. -/
def strictKey (k : Str) : Prop := k ≠ [] ∧ (∀ c ∈ k, pyWs c = false ∧ c ≠ ';')

/-- A well-formed attribute value for a full record round trip. -/
def strictVal : AttrValue → Prop
  | .str s => (∀ c ∈ s, pyWs c = false ∧ c ≠ ';')
      ∧ (∀ c, s.head? = some c → c ≠ '"') ∧ (∀ c, s.getLast? = some c → c ≠ '"')
  | .int _ => True
  | .flt f => canonB f = true

/-- A well-formed attribute map: well-formed pairs with distinct keys. -/
def attrsWF (m : AttrMap) : Prop :=
  (∀ p ∈ m, strictKey p.1 ∧ strictVal p.2) ∧ (m.map Prod.fst).Nodup

/-- A well-formed record in the sense of the spec: plain text columns, start
and end integers, score a float or the `.` sentinel, frame an integer or the
`.` sentinel, and a well-formed attribute map. -/
def RecordWF (r : GffRecord) : Prop :=
  textOk r.seqname ∧ textOk r.source ∧ textOk r.feature ∧ textOk r.strand
  ∧ ((∃ f, r.score = .flt f ∧ canonB f = true) ∨ r.score = .raw ['.'])
  ∧ ((∃ n, r.frame = .int n) ∨ r.frame = .raw ['.'])
  ∧ attrsWF r.attributes

/-- A well-formed record whose score is the `.` sentinel while its frame is a
genuine integer: the coupled try-block refutes the C4 round trip on it. -/
def recC4 : GffRecord :=
  { seqname := "chr1".data, source := "src".data, feature := "gene".data
    start := 1, endp := 2, score := .raw ['.'], strand := "+".data
    frame := .int 0, attributes := [] }

/-- What `get_fields` actually returns for `to_string recC4`: the frame stays
the literal text `0` because the failed score conversion aborts the try block. -/
def recC4out : GffRecord := { recC4 with frame := .raw ['0'] }

/-- A well-formed record with both score and frame the `.` sentinel, used to
witness the amended C4 round trip. -/
def recC4w : GffRecord :=
  { seqname := "chr1".data, source := "src".data, feature := "gene".data
    start := 10, endp := 20, score := .raw ['.'], strand := "-".data
    frame := .raw ['.'], attributes := [] }

-- ===== end of definitions; lemmas and theorems follow =====

example : getFields lineG1 = .ok recG1 := by rfl
example : getFields lineT1 = .ok recT1 := by rfl
example : getFields lineE1 = .ok recE1 := by rfl

example :
    gffRun [lineG1, lineT1, lineE1, lineG2] =
      .ok [some treeG1, some (.gene recG2 [])] := by rfl

example : gffRun [lineUnk, lineUnk] = .ok [none] := by rfl

example : floatParse "3.5".data = some (.fin 35 (-1)) := by decide
example : floatParse ".".data = none := by decide
example : floatParse "-0.05".data = some (.fin (-5) (-2)) := by decide
example : floatParse "2e3".data = some (.fin 2 3) := by decide
example : floatPrint (.fin 35 (-1)) = "3.5".data := by decide
example : floatPrint (.fin 2 3) = "2000.0".data := by decide
example : floatPrint (.fin 0 0) = "0.0".data := by decide
example : floatPrint (.fin (-5) (-2)) = "-0.05".data := by decide
example : pyIntParse "-12".data = some (-12) := by decide
example : pyIntParse ".".data = none := by decide
example : intStr (-12) = "-12".data := by decide

theorem attributeToValue_error (a : Str) (e : PyErr)
    (h : attributeToValue a = .error e) : e = .indexError := by
  unfold attributeToValue at h
  match a with
  | [] => cases h; rfl
  | c :: rest =>
    simp only at h
    split at h
    · cases h
    · split at h
      · cases h
      · split at h <;> cases h

theorem exMapM_error {α β : Type} (g : α → Except PyErr β)
    (hg : ∀ a e, g a = .error e → e = .indexError) :
    ∀ (l : List α) (e : PyErr), exMapM g l = .error e → e = .indexError := by
  intro l
  induction l with
  | nil => intro e h; exact absurd h (by simp [exMapM])
  | cons a t ih =>
    intro e h
    simp only [exMapM, Bind.bind] at h
    cases hga : g a with
    | error ea =>
      rw [hga] at h
      simp only [Except.bind] at h
      cases h
      exact hg a e hga
    | ok b =>
      rw [hga] at h
      simp only [Except.bind] at h
      cases hmt : exMapM g t with
      | error et =>
        rw [hmt] at h
        simp only [Except.bind] at h
        cases h
        exact ih e hmt
      | ok bs =>
        rw [hmt] at h
        simp only [Except.bind] at h
        cases h

theorem segPair_error (f : Str) (e : PyErr) (h : segPair f = .error e) :
    e = .indexError := by
  unfold segPair at h
  split at h <;> cases h
  rfl

theorem column9Dict_error (s : Str) (e : PyErr)
    (h : column9Dict s = .error e) : e = .indexError := by
  unfold column9Dict at h
  simp only [Bind.bind] at h
  cases h1 : exMapM segPair (((splitCh ';' s).map trimWs).filter (fun f => !f.isEmpty)) with
  | error e1 =>
    rw [h1] at h
    simp only [Except.bind] at h
    cases h
    exact exMapM_error segPair segPair_error _ e h1
  | ok pairs =>
    rw [h1] at h
    simp only [Except.bind] at h
    refine exMapM_error _ ?_ _ e h
    intro p e' hp
    cases hav : attributeToValue p.2 with
    | error ea =>
      rw [hav] at hp
      simp only [Except.map] at hp
      cases hp
      exact attributeToValue_error _ _ hav
    | ok v =>
      rw [hav] at hp
      simp only [Except.map] at hp
      cases hp

/-- C1: On the scenario input — gene G1, its transcript T1, T1's exon, then an
unrelated gene G2 — the iterator emits nothing while consuming the first three
lines, emits exactly the completed G1 tree (transcript T1 with its exon
nested) at the step that consumes the G2 line, and emits G2 itself at end of
stream; no other values are emitted. -/
theorem c1_scenario_emission_timing :
    gffConsume [lineG1, lineT1, lineE1] [] [] =
      .ok ([some (.exon recE1), some (.transcript recT1 []),
            some (.gene recG1 [])], [])
    ∧ gffConsume [lineG1, lineT1, lineE1, lineG2] [] [] =
      .ok ([some (.gene recG2 [])], [some treeG1])
    ∧ gffRun [lineG1, lineT1, lineE1, lineG2] =
      .ok [some treeG1, some (.gene recG2 [])] :=
  ⟨rfl, rfl, rfl⟩

/-- C10: `make_feature` yields no feature for every record whose kind is not
gene/transcript/exon/CDS, and for the concrete stream of two such lines the
iterator's output is exactly the absent value `none`: the attachment loop
treats the placeholder as a closed node (method calls on it are caught like a
failed attach), and stream end yields it as the root. -/
theorem c10_unrecognized_kind_yields_none :
    (∀ r : GffRecord,
      r.feature ≠ "gene".data → r.feature ≠ "transcript".data →
      r.feature ≠ "exon".data → r.feature ≠ "CDS".data →
      makeFeature r = none)
    ∧ gffRun [lineUnk, lineUnk] = .ok [none] := by
  constructor
  · intro r h1 h2 h3 h4
    simp [makeFeature, h1, h2, h3, h4]
  · rfl

theorem c10_unrecognized_kind_yields_none_witness :
    makeFeature
      { seqname := "chr1".data, source := "src".data, feature := "promoter".data
        start := 1, endp := 10, score := .raw ['.'], strand := "+".data
        frame := .raw ['.'], attributes := [("gene_id".data, .str "G1".data)] }
      = none :=
  c10_unrecognized_kind_yields_none.1 _ (by decide) (by decide) (by decide)
    (by decide)

/-- C5 counterexample: on a nine-field line with score `.` and frame `0`, the
parsed record's frame is the unconverted literal string `0`, not the integer
0 the claim requires (and the score stays the raw sentinel text). -/
theorem c5_counterexample_frame_not_int :
    (getFields lineC5).map GffRecord.frame = .ok (.raw ['0'])
    ∧ (getFields lineC5).map GffRecord.score = .ok (.raw ['.'])
    ∧ (FrameV.raw ['0'] : FrameV) ≠ .int 0 :=
  ⟨rfl, rfl, by decide⟩

/-- C5 amended: score and frame are converted inside one `try` block, score
first; when the score field does not parse as a float, the frame conversion
is skipped as well, and both fields keep their literal stripped text. -/
theorem c5_amended_score_failure_skips_frame (line : Str) (r : GffRecord)
    (hscore : floatParse (((splitCh '\t' line).map trimWs).getD 5 []) = none)
    (h : getFields line = .ok r) :
    r.score = .raw (((splitCh '\t' line).map trimWs).getD 5 [])
    ∧ r.frame = .raw (((splitCh '\t' line).map trimWs).getD 7 []) := by
  unfold getFields at h
  simp only [Bind.bind] at h
  split at h
  · cases hA : column9Dict (((splitCh '\t' line).map trimWs).getD 8 []) with
    | error eA => rw [hA] at h; simp only [Except.bind] at h; cases h
    | ok attrs =>
      rw [hA] at h
      simp only [Except.bind] at h
      cases hs : pyIntParse (((splitCh '\t' line).map trimWs).getD 3 []) with
      | none => rw [hs] at h; simp only [Except.bind] at h; cases h
      | some sv =>
        rw [hs] at h
        simp only [Except.bind] at h
        cases he : pyIntParse (((splitCh '\t' line).map trimWs).getD 4 []) with
        | none => rw [he] at h; simp only [Except.bind] at h; cases h
        | some ev =>
          rw [he] at h
          simp only [Except.bind, scoreFrame, hscore] at h
          cases h
          exact ⟨rfl, rfl⟩
  · cases h

theorem c5_amended_score_failure_skips_frame_witness :
    ({ seqname := "chr1".data, source := "src".data, feature := "gene".data
       start := 1, endp := 100, score := .raw ['.'], strand := "+".data
       frame := .raw ['0'], attributes := [("gene_id".data, .str "G1".data)] }
      : GffRecord).score = .raw (((splitCh '\t' lineC5).map trimWs).getD 5 [])
    ∧ ({ seqname := "chr1".data, source := "src".data, feature := "gene".data
         start := 1, endp := 100, score := .raw ['.'], strand := "+".data
         frame := .raw ['0'], attributes := [("gene_id".data, .str "G1".data)] }
      : GffRecord).frame = .raw (((splitCh '\t' lineC5).map trimWs).getD 7 []) :=
  c5_amended_score_failure_skips_frame lineC5 _ (by rfl) (by rfl)

/-- C7 counterexample: calling `can_add` on a leaf feature raises
`AttributeError` (leaves define no such method); it does not return false. -/
theorem c7_counterexample_leaf_can_add_raises :
    canAddM (.exon recE1) (some (.exon recE1)) = .error .attributeError
    ∧ canAddM (.exon recE1) (some (.exon recE1)) ≠ .ok false :=
  ⟨rfl, fun h => nomatch h⟩

/-- C7 amended: for every leaf feature (Exon or CDS) and every candidate,
calling `can_add` — and likewise `add_child` — raises `AttributeError`
because leaves define neither method; a leaf therefore never accepts a
child (the iterator catches the error as a failed attach). -/
theorem c7_amended_leaf_raises_attribute_error (f : Feature)
    (cand : Option Feature) (h : (isExon f || isCds f) = true) :
    canAddM f cand = .error .attributeError
    ∧ addChild f cand = .error .attributeError := by
  cases f with
  | gene d cs => simp [isExon, isCds] at h
  | transcript d cs => simp [isExon, isCds] at h
  | exon d => exact ⟨rfl, rfl⟩
  | cds d => exact ⟨rfl, rfl⟩

theorem c7_amended_leaf_raises_attribute_error_witness :
    canAddM (.cds recE1) (some (.gene recG1 [])) = .error .attributeError
    ∧ addChild (.cds recE1) (some (.gene recG1 [])) = .error .attributeError :=
  c7_amended_leaf_raises_attribute_error (.cds recE1) (some (.gene recG1 []))
    (by decide)

/-- C8: for every container and candidate, `add_child` fails (the source's
`TypeError`, the spec's `IncompatibleChildError`) exactly when `can_add` is
false — in which case only the error is returned, so the child sequence is
untouched — and when `can_add` is true it returns the container with the
candidate appended at the end of the child sequence, the wrapped record and
the container kind unchanged. -/
theorem c8_add_child_append_or_error (f : Feature) (cand : Feature)
    (h : (isGene f || isTranscript f) = true) :
    (addChild f (some cand) = .error .typeError ↔ canAddB f (some cand) = false)
    ∧ (canAddB f (some cand) = true →
        addChild f (some cand) = .ok (appendChildRaw f cand)
        ∧ featChildren (appendChildRaw f cand) = featChildren f ++ [cand]
        ∧ featData (appendChildRaw f cand) = featData f
        ∧ isGene (appendChildRaw f cand) = isGene f
        ∧ isTranscript (appendChildRaw f cand) = isTranscript f) := by
  cases f with
  | exon d => simp [isGene, isTranscript] at h
  | cds d => simp [isGene, isTranscript] at h
  | gene d cs =>
    constructor
    · by_cases hc : canAddB (.gene d cs) (some cand) = true
      · simp [addChild, hc]
      · simp [addChild, hc, Bool.not_eq_true] at *
    · intro hc
      simp [addChild, hc, appendChildRaw, featChildren, featData, isGene,
        isTranscript]
  | transcript d cs =>
    constructor
    · by_cases hc : canAddB (.transcript d cs) (some cand) = true
      · simp [addChild, hc]
      · simp [addChild, hc, Bool.not_eq_true] at *
    · intro hc
      simp [addChild, hc, appendChildRaw, featChildren, featData, isGene,
        isTranscript]

theorem c8_add_child_append_or_error_witness :
    addChild (.gene recG1 []) (some (.transcript recT1 [])) =
      .ok (appendChildRaw (.gene recG1 []) (.transcript recT1 [])) :=
  ((c8_add_child_append_or_error (.gene recG1 []) (.transcript recT1 [])
    (by decide)).2 (by decide)).1

/-- C9 counterexample: a nine-field line whose start column is not
integer-parseable but whose column 9 is malformed raises the attribute
error (`IndexError`), not a record error — `column_9_dict` runs before the
start/end conversion — refuting the claimed equivalence. -/
theorem c9_counterexample_attr_error_preempts :
    getFields lineC9 = .error .indexError
    ∧ ((splitCh '\t' lineC9).map trimWs).length = 9
    ∧ ((splitCh '\t' lineC9).map trimWs).getD 3 [] = "x".data
    ∧ pyIntParse "x".data = none
    ∧ isMalformedRecordErr .indexError = false :=
  ⟨rfl, rfl, rfl, rfl, rfl⟩

/-- C9 amended: `get_fields` raises a record-level error (the nine-column
assertion or the `ValueError` of the start/end integer conversion) iff the
line does not split into exactly nine tab-fields, or it does and column 9
decodes successfully while start or end is not integer-parseable; a
column-9 failure preempts the start/end check because `column_9_dict` runs
first. -/
theorem c9_amended_malformed_record_iff (line : Str) :
    (∃ e, getFields line = .error e ∧ isMalformedRecordErr e = true)
    ↔ (((splitCh '\t' line).map trimWs).length ≠ 9
       ∨ ((∃ m, column9Dict (((splitCh '\t' line).map trimWs).getD 8 []) = .ok m)
          ∧ (pyIntParse (((splitCh '\t' line).map trimWs).getD 3 []) = none
             ∨ pyIntParse (((splitCh '\t' line).map trimWs).getD 4 []) = none))) := by
  by_cases hl : ((splitCh '\t' line).map trimWs).length = 9
  · cases hA : column9Dict (((splitCh '\t' line).map trimWs).getD 8 []) with
    | error eA =>
      have heA := column9Dict_error _ _ hA
      subst heA
      have hg : getFields line = .error .indexError := by
        unfold getFields
        simp only [Bind.bind]
        rw [if_pos hl, hA]
        rfl
      constructor
      · rintro ⟨e, he, hm⟩
        rw [hg] at he
        injection he with he'
        subst he'
        exact absurd hm (by decide)
      · rintro (h9 | ⟨⟨m, hm⟩, _⟩)
        · exact absurd hl h9
        · simp at hm
    | ok attrs =>
      cases hs : pyIntParse (((splitCh '\t' line).map trimWs).getD 3 []) with
      | none =>
        have hg : getFields line = .error .valueError := by
          unfold getFields
          simp only [Bind.bind]
          rw [if_pos hl, hA]
          simp only [Except.bind]
          rw [hs]
        exact ⟨fun _ => Or.inr ⟨⟨attrs, rfl⟩, Or.inl rfl⟩,
               fun _ => ⟨.valueError, hg, rfl⟩⟩
      | some sv =>
        cases he : pyIntParse (((splitCh '\t' line).map trimWs).getD 4 []) with
        | none =>
          have hg : getFields line = .error .valueError := by
            unfold getFields
            simp only [Bind.bind]
            rw [if_pos hl, hA]
            simp only [Except.bind]
            rw [hs]
            simp only [Except.bind]
            rw [he]
          exact ⟨fun _ => Or.inr ⟨⟨attrs, rfl⟩, Or.inr rfl⟩,
                 fun _ => ⟨.valueError, hg, rfl⟩⟩
        | some ev =>
          have hg : ∀ e', getFields line ≠ .error e' := by
            intro e' hcon
            unfold getFields at hcon
            simp only [Bind.bind] at hcon
            rw [if_pos hl, hA] at hcon
            simp only [Except.bind] at hcon
            rw [hs] at hcon
            simp only [Except.bind] at hcon
            rw [he] at hcon
            simp only [Except.bind] at hcon
            exact Except.noConfusion hcon
          constructor
          · rintro ⟨e, hee, _⟩
            exact absurd hee (hg e)
          · rintro (h9 | ⟨_, (hd | hd)⟩)
            · exact absurd hl h9
            · simp at hd
            · simp at hd
  · have hg : getFields line = .error .assertionError := by
      unfold getFields
      simp only [Bind.bind]
      rw [if_neg hl]
    exact ⟨fun _ => Or.inl hl, fun _ => ⟨.assertionError, hg, rfl⟩⟩

/-- C3 counterexample: the scenario run emits a completed gene whose
grandchild exon (a direct child of the nested transcript T1) carries no
`gene_id` at all, so its `gene_id` (absent) differs from the gene's `G1`:
the full-descendant-set containment claim fails on assembled output. -/
theorem c3_counterexample_grandchild_gene_id :
    gffRun [lineG1, lineT1, lineE1, lineG2] =
      .ok [some treeG1, some (.gene recG2 [])]
    ∧ treeG1 = .gene recG1 [.transcript recT1 [.exon recE1]]
    ∧ featGeneId (.exon recE1) = none
    ∧ featGeneId treeG1 = some (.str "G1".data)
    ∧ featGeneId (.exon recE1) ≠ featGeneId treeG1
    ∧ pyOptEq (featGeneId (.exon recE1)) (featGeneId treeG1) = false :=
  ⟨rfl, rfl, rfl, rfl, by decide, rfl⟩

/-- C6 counterexample: `column_9_dict` splits a segment on every space and
keeps only the first two chunks, so `gene_name "my gene"` decodes to the
string `my` — not to `my gene` as the claim requires. -/
theorem c6_counterexample_space_in_quoted_value :
    column9Dict "gene_name \"my gene\";".data =
      .ok [("gene_name".data, .str "my".data)]
    ∧ (AttrValue.str "my".data) ≠ .str "my gene".data :=
  ⟨rfl, by decide⟩

theorem deepOkList_append (a b : List Feature) :
    deepOkList (a ++ b) = (deepOkList a && deepOkList b) := by
  induction a with
  | nil => simp [deepOkList]
  | cons c t ih => simp [deepOkList, ih, Bool.and_assoc]

theorem appendChildRaw_deepOk (p u : Feature) (hp : deepOk p = true)
    (hu : deepOk u = true) (hcan : canAddB p (some u) = true) :
    deepOk (appendChildRaw p u) = true := by
  cases p with
  | gene d cs =>
    simp only [deepOk, Bool.and_eq_true, List.all_eq_true] at hp
    simp only [canAddB, Bool.and_eq_true] at hcan
    simp only [appendChildRaw, deepOk, Bool.and_eq_true, List.all_eq_true,
      deepOkList_append, deepOkList, List.mem_append, List.mem_singleton]
    refine ⟨?_, hp.2, ?_⟩
    · rintro c (hcm | rfl)
      · exact hp.1 c hcm
      · exact hcan.2
    · simp [hu]
  | transcript d cs =>
    simp only [deepOk, Bool.and_eq_true, List.all_eq_true] at hp
    simp only [canAddB, Bool.and_eq_true] at hcan
    simp only [appendChildRaw, deepOk, Bool.and_eq_true, List.all_eq_true,
      deepOkList_append, deepOkList, List.mem_append, List.mem_singleton]
    refine ⟨?_, hp.2, ?_⟩
    · rintro c (hcm | rfl)
      · exact hp.1 c hcm
      · exact hcan.2
    · simp [hu]
  | exon d => simp [canAddB] at hcan
  | cds d => simp [canAddB] at hcan

theorem canAddB_appendChildRaw (q p u : Feature) :
    canAddB q (some (appendChildRaw p u)) = canAddB q (some p) := by
  cases q <;> cases p <;> rfl

theorem canAttach_fold (q p c : Option Feature) :
    canAttach q (foldTopInto p c) = canAttach q p := by
  cases p with
  | none => cases c <;> rfl
  | some pf =>
    cases c with
    | none => rfl
    | some cf =>
      cases q with
      | none => rfl
      | some qf => exact canAddB_appendChildRaw qf pf cf

theorem foldTopInto_deepOk (p c : Option Feature) (hp : optDeepOk p = true)
    (hc : optDeepOk c = true) (hl : canAttach p c = true) :
    optDeepOk (foldTopInto p c) = true := by
  cases p with
  | none => cases c <;> simp [canAttach] at hl
  | some pf =>
    cases c with
    | none => simp [canAttach] at hl
    | some cf =>
      simp only [canAttach] at hl
      exact appendChildRaw_deepOk pf cf hp hc hl

theorem chainOk_fold (t : List (Option Feature)) (p top : Option Feature)
    (h : chainOk (p :: t) = true) :
    chainOk (foldTopInto p top :: t) = true := by
  cases t with
  | nil => rfl
  | cons q t' =>
    simp only [chainOk, Bool.and_eq_true, canAttach_fold] at *
    exact h

theorem pyAdd_ok_canAttach (top cand : Option Feature) (g : Feature)
    (h : pyAdd top cand = .ok g) : canAttach top cand = true := by
  cases top with
  | none => simp [pyAdd] at h
  | some pf =>
    cases pf with
    | exon d => simp [pyAdd, addChild] at h
    | cds d => simp [pyAdd, addChild] at h
    | gene d cs =>
      simp only [pyAdd, addChild] at h
      split at h
      · cases cand with
        | some cf => simpa [canAttach]
        | none => cases h
      · cases h
    | transcript d cs =>
      simp only [pyAdd, addChild] at h
      split at h
      · cases cand with
        | some cf => simpa [canAttach]
        | none => cases h
      · cases h

theorem attachGo_inv (rest : List (Option Feature)) :
    ∀ (top cand : Option Feature),
    (top :: rest).all optDeepOk = true → chainOk (top :: rest) = true →
    optDeepOk cand = true →
    (cand :: (attachGo top rest cand).1).all optDeepOk = true
    ∧ chainOk (cand :: (attachGo top rest cand).1) = true
    ∧ (∀ v, (attachGo top rest cand).2 = some v → optDeepOk v = true) := by
  induction rest with
  | nil =>
    intro top cand h1 h2 hc
    cases hadd : pyAdd top cand with
    | ok g =>
      simp only [attachGo, hadd]
      refine ⟨by simp_all, ?_, by simp⟩
      simp only [chainOk, Bool.and_eq_true]
      exact ⟨pyAdd_ok_canAttach top cand g hadd, trivial⟩
    | error e =>
      simp only [attachGo, hadd]
      refine ⟨by simp_all, rfl, ?_⟩
      rintro v hv
      injection hv with hv'
      subst hv'
      simp only [List.all_cons, Bool.and_eq_true] at h1
      exact h1.1
  | cons p t ih =>
    intro top cand h1 h2 hc
    cases hadd : pyAdd top cand with
    | ok g =>
      simp only [attachGo, hadd]
      refine ⟨by simp_all, ?_, by simp⟩
      simp only [chainOk, Bool.and_eq_true] at h2 ⊢
      exact ⟨pyAdd_ok_canAttach top cand g hadd, h2⟩
    | error e =>
      simp only [attachGo, hadd]
      simp only [List.all_cons, Bool.and_eq_true] at h1
      simp only [chainOk, Bool.and_eq_true] at h2
      refine ih (foldTopInto p top) cand ?_ ?_ hc
      · simp only [List.all_cons, Bool.and_eq_true]
        exact ⟨foldTopInto_deepOk p top h1.2.1 h1.1 h2.1, h1.2.2⟩
      · exact chainOk_fold t p top h2.2

theorem makeFeature_optDeepOk (r : GffRecord) :
    optDeepOk (makeFeature r) = true := by
  unfold makeFeature
  split_ifs <;> rfl

theorem attachLoop_inv (st : List (Option Feature)) (cand : Option Feature)
    (h1 : st.all optDeepOk = true) (h2 : chainOk st = true)
    (hc : optDeepOk cand = true) :
    (cand :: (attachLoop st cand).1).all optDeepOk = true
    ∧ chainOk (cand :: (attachLoop st cand).1) = true
    ∧ (∀ v, (attachLoop st cand).2 = some v → optDeepOk v = true) := by
  cases st with
  | nil => exact ⟨by simp_all [attachLoop], rfl, by simp [attachLoop]⟩
  | cons top rest => exact attachGo_inv rest top cand h1 h2 hc

theorem gffConsume_inv (ls : List Str) :
    ∀ (st out : List (Option Feature))
      (res : List (Option Feature) × List (Option Feature)),
    st.all optDeepOk = true → chainOk st = true → out.all optDeepOk = true →
    gffConsume ls st out = .ok res →
    res.1.all optDeepOk = true ∧ chainOk res.1 = true
    ∧ res.2.all optDeepOk = true := by
  induction ls with
  | nil =>
    intro st out res h1 h2 h3 h
    simp only [gffConsume] at h
    injection h with h'
    subst h'
    exact ⟨h1, h2, h3⟩
  | cons l ls ih =>
    intro st out res h1 h2 h3 h
    simp only [gffConsume] at h
    split at h
    · exact ih st out res h1 h2 h3 h
    · cases hgf : getFields l with
      | error e => rw [hgf] at h; cases h
      | ok r =>
        rw [hgf] at h
        simp only at h
        have hinv := attachLoop_inv st (makeFeature r) h1 h2
          (makeFeature_optDeepOk r)
        refine ih _ _ res hinv.1 hinv.2.1 ?_ h
        simp only [List.all_append, Bool.and_eq_true]
        refine ⟨h3, ?_⟩
        cases hem : (attachLoop st (makeFeature r)).2 with
        | none => simp [emitOf]
        | some v =>
          have hv := hinv.2.2 v hem
          cases v with
          | none => simp [emitOf]
          | some f => simp [emitOf, optDeepOk] at hv ⊢; exact hv

theorem foldGo_deepOk (t : List (Option Feature)) :
    ∀ (c : Option Feature), (c :: t).all optDeepOk = true →
    chainOk (c :: t) = true → optDeepOk (foldGo c t) = true := by
  induction t with
  | nil =>
    intro c h1 _
    simp only [List.all_cons, Bool.and_eq_true] at h1
    exact h1.1
  | cons p t' ih =>
    intro c h1 h2
    simp only [List.all_cons, Bool.and_eq_true] at h1
    simp only [chainOk, Bool.and_eq_true] at h2
    refine ih (foldTopInto p c) ?_ (chainOk_fold t' p c h2.2)
    simp only [List.all_cons, Bool.and_eq_true]
    exact ⟨foldTopInto_deepOk p c h1.2.1 h1.1 h2.1, h1.2.2⟩

/-- C3 amended: every feature tree the iterator emits satisfies the direct
containment invariant at every node: each direct child of a gene node
carries the gene's `gene_id`, and each direct child of a transcript node
carries the transcript's `transcript_id` (Python `==`, an absent id equal
only to an absent id). The original full-descendant-set form is refuted by
`c3_counterexample_grandchild_gene_id`. -/
theorem c3_amended_direct_children_ids (ls : List Str)
    (out : List (Option Feature)) (h : gffRun ls = .ok out) :
    ∀ v ∈ out, ∀ f, v = some f → deepOk f = true := by
  unfold gffRun at h
  cases hc : gffConsume ls [] [] with
  | error e => rw [hc] at h; cases h
  | ok res =>
    rw [hc] at h
    simp only [Except.map] at h
    injection h with h'
    subst h'
    have hinv := gffConsume_inv ls [] [] res rfl rfl rfl hc
    intro v hv f hvf
    subst hvf
    rcases List.mem_append.1 hv with hm | hm
    · have := List.all_eq_true.1 hinv.2.2 _ hm
      simpa [optDeepOk] using this
    · cases hst : res.1 with
      | nil => rw [hst] at hm; simp [finishOf] at hm
      | cons c t =>
        rw [hst] at hm
        simp only [finishOf, List.mem_singleton] at hm
        have hfold := foldGo_deepOk t c (hst ▸ hinv.1) (hst ▸ hinv.2.1)
        rw [← hm] at hfold
        simpa [optDeepOk] using hfold

theorem c3_amended_direct_children_ids_witness : deepOk treeG1 = true :=
  c3_amended_direct_children_ids [lineG1, lineT1, lineE1, lineG2]
    [some treeG1, some (.gene recG2 [])] rfl (some treeG1) (by simp)
    treeG1 rfl

theorem natFrom_go (l : Str) :
    ∀ s : Nat, l.foldl (fun a c => 10 * a + digVal c) s
      = s * 10 ^ l.length + natFrom l := by
  induction l with
  | nil => intro s; simp [natFrom]
  | cons c t ih =>
    intro s
    show t.foldl _ (10 * s + digVal c) = _
    rw [ih (10 * s + digVal c)]
    have h2 : natFrom (c :: t) = digVal c * 10 ^ t.length + natFrom t := by
      show t.foldl _ (10 * 0 + digVal c) = _
      rw [ih (10 * 0 + digVal c)]
      ring
    rw [h2]
    simp [List.length_cons, pow_succ]
    ring

theorem natFrom_append (a b : Str) :
    natFrom (a ++ b) = natFrom a * 10 ^ b.length + natFrom b := by
  show (a ++ b).foldl _ 0 = _
  rw [List.foldl_append]
  exact natFrom_go b (natFrom a)

theorem natFrom_replicate_zero (k : Nat) :
    natFrom (List.replicate k '0') = 0 := by
  induction k with
  | zero => rfl
  | succ j ih =>
    rw [List.replicate_succ]
    show (List.replicate j '0').foldl _ (10 * 0 + digVal '0') = 0
    have : 10 * 0 + digVal '0' = 0 := by decide
    rw [this]
    exact ih

theorem digVal_digChr (d : Nat) (h : d < 10) : digVal (digChr d) = d := by
  interval_cases d <;> decide

theorem digChr_isDigit (d : Nat) (h : d < 10) : (digChr d).isDigit = true := by
  interval_cases d <;> decide

theorem digitsGo_acc :
    ∀ (fuel n : Nat) (acc : Str), n < 10 ^ fuel →
      digitsGo fuel n acc = digitsGo fuel n [] ++ acc := by
  intro fuel
  induction fuel with
  | zero => intro n acc h; simp [digitsGo]
  | succ f ih =>
    intro n acc h
    by_cases h10 : n < 10
    · simp [digitsGo, h10]
    · simp only [digitsGo, if_neg h10]
      have hb : n / 10 < 10 ^ f := by
        have : 10 ^ (f + 1) = 10 ^ f * 10 := by ring
        rw [Nat.div_lt_iff_lt_mul (by norm_num)]
        omega
      rw [ih (n / 10) (digChr (n % 10) :: acc) hb,
        ih (n / 10) [digChr (n % 10)] hb]
      simp

theorem digitsGo_fuel :
    ∀ (f1 f2 n : Nat) (acc : Str), n < 10 ^ f1 → n < 10 ^ f2 →
      1 ≤ f1 → 1 ≤ f2 → digitsGo f1 n acc = digitsGo f2 n acc := by
  intro f1
  induction f1 with
  | zero => intro f2 n acc _ _ hf1 _; exact absurd hf1 (by omega)
  | succ f ih =>
    intro f2 n acc h1 h2 _ hf2
    cases f2 with
    | zero => exact absurd hf2 (by omega)
    | succ g =>
      by_cases h10 : n < 10
      · simp [digitsGo, h10]
      · simp only [digitsGo, if_neg h10]
        have hq1 : n / 10 < 10 ^ f := by
          have : 10 ^ (f + 1) = 10 ^ f * 10 := by ring
          rw [Nat.div_lt_iff_lt_mul (by norm_num)]
          omega
        have hq2 : n / 10 < 10 ^ g := by
          have : 10 ^ (g + 1) = 10 ^ g * 10 := by ring
          rw [Nat.div_lt_iff_lt_mul (by norm_num)]
          omega
        have hge1 : 1 ≤ f := by
          by_contra hc
          have hf0 : f = 0 := by omega
          subst hf0
          simp at hq1
          omega
        have hge2 : 1 ≤ g := by
          by_contra hc
          have hg0 : g = 0 := by omega
          subst hg0
          simp at hq2
          omega
        exact ih g (n / 10) _ hq1 hq2 hge1 hge2

theorem digitsOf_eq (n : Nat) :
    digitsOf n =
      if n < 10 then [digChr n] else digitsOf (n / 10) ++ [digChr (n % 10)] := by
  by_cases h10 : n < 10
  · simp [digitsOf, digitsGo, h10]
  · rw [if_neg h10]
    have h1 : digitsOf n = digitsGo n (n / 10) [digChr (n % 10)] := by
      simp [digitsOf, digitsGo, h10]
    rw [h1]
    have hfa : n / 10 < 10 ^ n := by
      have h2 := Nat.lt_pow_self (a := 10) (by norm_num) n
      have h3 := Nat.div_le_self n 10
      omega
    rw [digitsGo_acc n (n / 10) [digChr (n % 10)] hfa]
    congr 1
    have hfb : n / 10 < 10 ^ (n / 10 + 1) := by
      have h2 := Nat.lt_pow_self (a := 10) (by norm_num) (n / 10)
      have h3 : (10 : Nat) ^ (n / 10) ≤ 10 ^ (n / 10 + 1) :=
        Nat.pow_le_pow_right (by norm_num) (by omega)
      omega
    exact digitsGo_fuel n (n / 10 + 1) (n / 10) [] hfa hfb (by omega) (by omega)

theorem natFrom_digitsOf (n : Nat) : natFrom (digitsOf n) = n := by
  induction n using Nat.strong_induction_on with
  | _ n ih =>
    rw [digitsOf_eq]
    by_cases h10 : n < 10
    · rw [if_pos h10]
      show 10 * 0 + digVal (digChr n) = n
      rw [digVal_digChr n h10]
      omega
    · rw [if_neg h10, natFrom_append]
      rw [ih (n / 10) (by omega)]
      have hfrom : natFrom [digChr (n % 10)] = n % 10 := by
        show 10 * 0 + digVal (digChr (n % 10)) = n % 10
        rw [digVal_digChr (n % 10) (by omega)]
        omega
      rw [hfrom]
      simp only [List.length_singleton, pow_one]
      omega

theorem digitsOf_ne_nil (n : Nat) : digitsOf n ≠ [] := by
  rw [digitsOf_eq]
  split <;> simp

theorem digitsOf_digits (n : Nat) : ∀ c ∈ digitsOf n, c.isDigit = true := by
  induction n using Nat.strong_induction_on with
  | _ n ih =>
    rw [digitsOf_eq]
    by_cases h10 : n < 10
    · rw [if_pos h10]
      intro c hc
      rw [List.mem_singleton] at hc
      subst hc
      exact digChr_isDigit n h10
    · rw [if_neg h10]
      intro c hc
      rcases List.mem_append.1 hc with hm | hm
      · exact ih (n / 10) (by omega) c hm
      · rw [List.mem_singleton] at hm
        subst hm
        exact digChr_isDigit (n % 10) (by omega)

theorem canon_zero (e : Int) : canon 0 e = .fin 0 0 := rfl

theorem canon_of_nondvd (m e : Int) (hm : m ≠ 0) (hd : m % 10 ≠ 0) :
    canon m e = .fin m e := by
  show canonGo (m.natAbs + 1) m e = _
  simp [canonGo, hm, hd]

theorem canonGo_fuel :
    ∀ (f g : Nat) (m e : Int), m.natAbs < f → m.natAbs < g →
      canonGo f m e = canonGo g m e := by
  intro f
  induction f with
  | zero => intro g m e h1 _; exact absurd h1 (by omega)
  | succ f ih =>
    intro g m e h1 h2
    cases g with
    | zero => exact absurd h2 (by omega)
    | succ g =>
      by_cases hm : m = 0
      · simp [canonGo, hm]
      · by_cases hd : m % 10 = 0
        · simp only [canonGo, if_neg hm, if_pos hd]
          have hq1 : (m / 10).natAbs < f := by omega
          have hq2 : (m / 10).natAbs < g := by omega
          exact ih g (m / 10) (e + 1) hq1 hq2
        · simp [canonGo, hm, hd]

theorem canon_mul_ten (m e : Int) (hm : m ≠ 0) :
    canon (m * 10) e = canon m (e + 1) := by
  have h0 : m * 10 ≠ 0 := by omega
  have hd : m * 10 % 10 = 0 := by omega
  have hdiv : m * 10 / 10 = m := by omega
  show canonGo ((m * 10).natAbs + 1) (m * 10) e = canonGo (m.natAbs + 1) m (e + 1)
  rw [show (m * 10).natAbs + 1 = (m * 10).natAbs + 1 from rfl]
  simp only [canonGo, if_neg h0, if_pos hd, hdiv]
  have hq1 : m.natAbs < (m * 10).natAbs := by omega
  have hq2 : m.natAbs < m.natAbs + 1 := by omega
  exact canonGo_fuel ((m * 10).natAbs) (m.natAbs + 1) m (e + 1) hq1 hq2

theorem canon_pow :
    ∀ (j : Nat) (m e : Int), m ≠ 0 → m % 10 ≠ 0 →
      canon (m * 10 ^ j) (e - j) = .fin m e := by
  intro j
  induction j with
  | zero =>
    intro m e hm hd
    simpa using canon_of_nondvd m e hm hd
  | succ j ih =>
    intro m e hm hd
    have h1 : m * 10 ^ (j + 1) = m * 10 ^ j * 10 := by ring
    have h2 : (e - (j + 1 : Nat)) = e - (j : Int) - 1 := by push_cast; ring
    have h3 : m * 10 ^ j ≠ 0 := by
      have : (10 : Int) ^ j ≠ 0 := pow_ne_zero j (by norm_num)
      exact mul_ne_zero hm this
    rw [h1, h2, canon_mul_ten _ _ h3]
    have h4 : e - (j : Int) - 1 + 1 = e - (j : Int) := by ring
    rw [h4]
    exact ih m e hm hd

theorem canonB_canonGo :
    ∀ (f : Nat) (m e : Int), m.natAbs < f → canonB (canonGo f m e) = true := by
  intro f
  induction f with
  | zero => intro m e h; exact absurd h (by omega)
  | succ f ih =>
    intro m e h
    by_cases hm : m = 0
    · simp [canonGo, hm, canonB]
    · by_cases hd : m % 10 = 0
      · simp only [canonGo, if_neg hm, if_pos hd]
        have hq1 : (m / 10).natAbs < f := by omega
        exact ih (m / 10) (e + 1) hq1
      · simp [canonGo, hm, hd, canonB]

theorem canonB_canon (m e : Int) : canonB (canon m e) = true :=
  canonB_canonGo (m.natAbs + 1) m e (by omega)

theorem floatMantissa_canonB (neg : Bool) (b : Str) (f : PyFloat)
    (h : floatMantissa neg b = some f) : canonB f = true := by
  unfold floatMantissa at h
  rcases hsb : spanDigits b with ⟨ip, r1⟩
  rw [hsb] at h
  simp only at h
  split at h
  · cases h
  · split at h
    · injection h with h'
      subst h'
      exact canonB_canon _ _
    · split at h
      · split at h
        · cases h
        · injection h with h'
          subst h'
          exact canonB_canon _ _
      · cases h

theorem floatParse_canonB (s : Str) (f : PyFloat)
    (h : floatParse s = some f) : canonB f = true := by
  unfold floatParse at h
  simp only at h
  split at h
  · injection h with h'
    subst h'
    rfl
  · split at h
    · injection h with h'
      subst h'
      rfl
    · exact floatMantissa_canonB _ _ _ h

theorem dropWhile_eq_self_of_head (p : Char → Bool) (l : Str)
    (h : ∀ c, l.head? = some c → p c = false) : l.dropWhile p = l := by
  cases l with
  | nil => rfl
  | cons c cs =>
    have hc := h c rfl
    simp [List.dropWhile, hc]

theorem head_dropWhile_not (p : Char → Bool) (l : Str) :
    ∀ c, (l.dropWhile p).head? = some c → p c = false := by
  induction l with
  | nil => intro c h; cases h
  | cons a t ih =>
    intro c h
    by_cases hp : p a = true
    · rw [List.dropWhile_cons_of_pos hp] at h
      exact ih c h
    · rw [List.dropWhile_cons_of_neg hp] at h
      injection h with h'
      subst h'
      simpa using hp

theorem mem_dropWhile (p : Char → Bool) (l : Str) :
    ∀ x ∈ l.dropWhile p, x ∈ l := by
  induction l with
  | nil => intro x h; exact h
  | cons a t ih =>
    intro x h
    by_cases hp : p a = true
    · rw [List.dropWhile_cons_of_pos hp] at h
      exact List.mem_cons_of_mem a (ih x h)
    · rw [List.dropWhile_cons_of_neg hp] at h
      exact h

theorem dropTail_eq_self (p : Char → Bool) (l : Str)
    (h : ∀ c, l.getLast? = some c → p c = false) : dropTail p l = l := by
  induction l with
  | nil => rfl
  | cons c cs ih =>
    cases cs with
    | nil =>
      have hc := h c rfl
      simp [dropTail, hc]
    | cons b bs =>
      have hcs : dropTail p (b :: bs) = b :: bs := by
        refine ih ?_
        intro x hx
        refine h x ?_
        rw [List.getLast?_cons_cons]
        exact hx
      show (match dropTail p (b :: bs) with
        | [] => if p c = true then [] else [c]
        | r => c :: r) = c :: b :: bs
      rw [hcs]

theorem mem_dropTail (p : Char → Bool) (l : Str) :
    ∀ x ∈ dropTail p l, x ∈ l := by
  induction l with
  | nil => intro x h; exact h
  | cons c cs ih =>
    intro x h
    have h' : x ∈ (match dropTail p cs with
        | [] => if p c = true then [] else [c]
        | r => c :: r) := h
    cases hr : dropTail p cs with
    | nil =>
      rw [hr] at h'
      by_cases hp : p c = true
      · simp [hp] at h'
      · rw [if_neg hp] at h'
        rw [List.mem_singleton] at h'
        rw [h']
        exact List.mem_cons_self c cs
    | cons r rs =>
      rw [hr] at h'
      rcases List.mem_cons.1 h' with hx | hx
      · rw [hx]; exact List.mem_cons_self c cs
      · refine List.mem_cons_of_mem c (ih x ?_)
        rw [hr]
        exact hx

theorem dropTail_head (p : Char → Bool) (l : Str) :
    ∀ c, (dropTail p l).head? = some c → l.head? = some c := by
  cases l with
  | nil => intro c h; cases h
  | cons a cs =>
    intro c h
    have h' : (match dropTail p cs with
        | [] => if p a = true then [] else [a]
        | r => a :: r).head? = some c := h
    cases hr : dropTail p cs with
    | nil =>
      rw [hr] at h'
      by_cases hp : p a = true
      · simp [hp] at h'
      · rw [if_neg hp] at h'
        injection h' with h2
        subst h2
        rfl
    | cons r rs =>
      rw [hr] at h'
      injection h' with h2
      subst h2
      rfl

theorem dropTail_last (p : Char → Bool) (l : Str) :
    ∀ c, (dropTail p l).getLast? = some c → p c = false := by
  induction l with
  | nil => intro c h; cases h
  | cons a cs ih =>
    intro c h
    have h' : (match dropTail p cs with
        | [] => if p a = true then [] else [a]
        | r => a :: r).getLast? = some c := h
    cases hr : dropTail p cs with
    | nil =>
      rw [hr] at h'
      by_cases hp : p a = true
      · simp [hp] at h'
      · rw [if_neg hp] at h'
        simp only [List.getLast?_singleton] at h'
        injection h' with h2
        subst h2
        simpa using hp
    | cons r rs =>
      rw [hr] at h'
      rw [List.getLast?_cons_cons] at h'
      refine ih c ?_
      rw [hr]
      exact h'

theorem isDigit_not_ws (c : Char) (h : c.isDigit = true) : pyWs c = false := by
  by_contra hws
  rw [Bool.not_eq_false] at hws
  simp only [pyWs, Bool.or_eq_true, decide_eq_true_eq] at hws
  rcases hws with ((((hc | hc) | hc) | hc) | hc) | hc <;>
    (subst hc; exact absurd h (by decide))

theorem isDigit_ne (c : Char) (h : c.isDigit = true) :
    c ≠ ';' ∧ c ≠ ' ' ∧ c ≠ '"' ∧ c ≠ '\t' ∧ c ≠ '-' ∧ c ≠ '.' := by
  refine ⟨?_, ?_, ?_, ?_, ?_, ?_⟩ <;> (rintro rfl; exact absurd h (by decide))

theorem trimWs_eq_self (l : Str) (hh : ∀ c, l.head? = some c → pyWs c = false)
    (ht : ∀ c, l.getLast? = some c → pyWs c = false) : trimWs l = l := by
  unfold trimWs
  rw [dropWhile_eq_self_of_head pyWs l hh]
  exact dropTail_eq_self pyWs l ht

theorem trimWs_head_not_ws (l : Str) :
    ∀ c, (trimWs l).head? = some c → pyWs c = false := by
  intro c h
  exact head_dropWhile_not pyWs l c (dropTail_head pyWs _ c h)

theorem trimWs_last_not_ws (l : Str) :
    ∀ c, (trimWs l).getLast? = some c → pyWs c = false := by
  intro c h
  exact dropTail_last pyWs _ c h

theorem mem_trimWs (l : Str) : ∀ x ∈ trimWs l, x ∈ l := by
  intro x h
  exact mem_dropWhile pyWs l x (mem_dropTail pyWs _ x h)

theorem trimWs_cons_ws (c : Char) (l : Str) (h : pyWs c = true) :
    trimWs (c :: l) = trimWs l := by
  unfold trimWs
  rw [List.dropWhile_cons_of_pos h]

theorem stripQuotes_head (l : Str) :
    ∀ c, (stripQuotes l).head? = some c → c ≠ '"' := by
  intro c h
  have h2 := head_dropWhile_not (fun c => c = '"') l c
    (dropTail_head (fun c => c = '"') _ c h)
  simpa using h2

theorem stripQuotes_last (l : Str) :
    ∀ c, (stripQuotes l).getLast? = some c → c ≠ '"' := by
  intro c h
  have h2 := dropTail_last (fun c => c = '"') _ c h
  simpa using h2

theorem mem_stripQuotes (l : Str) : ∀ x ∈ stripQuotes l, x ∈ l := by
  intro x h
  exact mem_dropWhile _ l x (mem_dropTail _ _ x h)

theorem dropTail_append_single (p : Char → Bool) (x : Char) (hx : p x = true) :
    ∀ l : Str, dropTail p (l ++ [x]) = dropTail p l := by
  intro l
  induction l with
  | nil => simp [dropTail, hx]
  | cons c cs ih =>
    show (match dropTail p (cs ++ [x]) with
      | [] => if p c = true then [] else [c]
      | r => c :: r) = dropTail p (c :: cs)
    rw [ih]
    rfl

theorem stripQuotes_wrap (s : Str) (hh : ∀ c, s.head? = some c → c ≠ '"')
    (ht : ∀ c, s.getLast? = some c → c ≠ '"') :
    stripQuotes ('"' :: (s ++ ['"'])) = s := by
  unfold stripQuotes
  rw [List.dropWhile_cons_of_pos (by simp)]
  cases s with
  | nil => rfl
  | cons c cs =>
    rw [dropWhile_eq_self_of_head _ _ ?_]
    · rw [dropTail_append_single _ '"' (by simp)]
      refine dropTail_eq_self _ _ ?_
      intro x hx
      simpa using ht x hx
    · intro x hx
      rw [List.cons_append] at hx
      injection hx with hx'
      rw [← hx']
      simpa using hh c rfl

theorem head?_mem {α : Type} (l : List α) (c : α) (h : l.head? = some c) :
    c ∈ l := by
  cases l with
  | nil => cases h
  | cons a t =>
    injection h with h'
    rw [← h']
    exact List.mem_cons_self a t

theorem getLast?_mem {α : Type} (l : List α) (c : α)
    (h : l.getLast? = some c) : c ∈ l := by
  induction l with
  | nil => cases h
  | cons a t ih =>
    cases t with
    | nil =>
      injection h with h'
      rw [← h']
      exact List.mem_cons_self a []
    | cons b bs =>
      rw [List.getLast?_cons_cons] at h
      exact List.mem_cons_of_mem a (ih h)

theorem spanDigits_split (ds : Str) :
    ∀ r : Str, (∀ c ∈ ds, c.isDigit = true) →
    (∀ c, r.head? = some c → c.isDigit = false) →
    spanDigits (ds ++ r) = (ds, r) := by
  induction ds with
  | nil =>
    intro r _ hr
    cases r with
    | nil => rfl
    | cons c cs =>
      have := hr c rfl
      simp [spanDigits, this]
  | cons d dt ih =>
    intro r hds hr
    have hd : d.isDigit = true := hds d (List.mem_cons_self d dt)
    rw [List.cons_append]
    show (if d.isDigit then
        match spanDigits (dt ++ r) with
        | (ds, r) => (d :: ds, r)
      else ([], d :: (dt ++ r))) = (d :: dt, r)
    rw [if_pos hd, ih r (fun c hc => hds c (List.mem_cons_of_mem d hc)) hr]

theorem spanDigits_all (ds : Str) (h : ∀ c ∈ ds, c.isDigit = true) :
    spanDigits ds = (ds, []) := by
  have := spanDigits_split ds [] h (by intro c hc; cases hc)
  simpa using this

theorem mem_natPointStr (n : Nat) (e : Int) :
    ∀ c ∈ natPointStr n e, c.isDigit = true ∨ c = '.' := by
  unfold natPointStr
  split_ifs with h1 h2
  · intro c hc
    rcases List.mem_append.1 hc with hm | hm
    · rcases List.mem_append.1 hm with hm2 | hm2
      · exact Or.inl (digitsOf_digits n c hm2)
      · rw [List.eq_of_mem_replicate hm2]
        exact Or.inl (by decide)
    · rcases List.mem_cons.1 hm with rfl | hm2
      · exact Or.inr rfl
      · rw [List.mem_singleton] at hm2
        rw [hm2]
        exact Or.inl (by decide)
  · intro c hc
    rcases List.mem_append.1 hc with hm | hm
    · exact Or.inl (digitsOf_digits n c (List.take_subset _ _ hm))
    · rcases List.mem_cons.1 hm with rfl | hm2
      · exact Or.inr rfl
      · exact Or.inl (digitsOf_digits n c (List.drop_subset _ _ hm2))
  · intro c hc
    rcases List.mem_cons.1 hc with rfl | hm
    · exact Or.inl (by decide)
    · rcases List.mem_cons.1 hm with rfl | hm2
      · exact Or.inr rfl
      · rcases List.mem_append.1 hm2 with hm3 | hm3
        · rw [List.eq_of_mem_replicate hm3]
          exact Or.inl (by decide)
        · exact Or.inl (digitsOf_digits n c hm3)

theorem dot_mem_natPointStr (n : Nat) (e : Int) : '.' ∈ natPointStr n e := by
  unfold natPointStr
  split_ifs with h1 h2
  · refine List.mem_append.2 (Or.inr ?_)
    exact List.mem_cons_self '.' ['0']
  · exact List.mem_append.2 (Or.inr (List.mem_cons_self _ _))
  · exact List.mem_cons_of_mem '0' (List.mem_cons_self '.' _)

theorem natPointStr_cons (n : Nat) (e : Int) :
    ∃ c rest, natPointStr n e = c :: rest ∧ c.isDigit = true := by
  unfold natPointStr
  split_ifs with h1 h2
  · cases hd : digitsOf n with
    | nil => exact absurd hd (digitsOf_ne_nil n)
    | cons d dt =>
      refine ⟨d, dt ++ List.replicate (Int.toNat e) '0' ++ ['.', '0'], ?_, ?_⟩
      · rw [List.cons_append, List.cons_append]
      · exact digitsOf_digits n d (hd ▸ List.mem_cons_self d dt)
  · cases hd : digitsOf n with
    | nil => exact absurd hd (digitsOf_ne_nil n)
    | cons d dt =>
      rw [hd] at h2
      have hlen : (d :: dt).length - (Int.toNat (-e)) =
          ((d :: dt).length - (Int.toNat (-e)) - 1) + 1 := by omega
      rw [hlen, List.take_succ_cons, List.cons_append]
      exact ⟨d, _, rfl, digitsOf_digits n d (hd ▸ List.mem_cons_self d dt)⟩
  · exact ⟨'0', _, rfl, by decide⟩

theorem floatPrint_safe (f : PyFloat) :
    ∀ c ∈ floatPrint f, pyWs c = false ∧ c ≠ ';' ∧ c ≠ '"' := by
  cases f with
  | fin m e =>
    intro c hc
    simp only [floatPrint] at hc
    by_cases hm : m < 0
    · rw [if_pos hm] at hc
      rcases List.mem_cons.1 hc with rfl | hm2
      · exact ⟨by decide, by decide, by decide⟩
      · rcases mem_natPointStr _ _ c hm2 with hd | rfl
        · exact ⟨isDigit_not_ws c hd, (isDigit_ne c hd).1,
            (isDigit_ne c hd).2.2.1⟩
        · exact ⟨by decide, by decide, by decide⟩
    · rw [if_neg hm] at hc
      rcases mem_natPointStr _ _ c hc with hd | rfl
      · exact ⟨isDigit_not_ws c hd, (isDigit_ne c hd).1,
          (isDigit_ne c hd).2.2.1⟩
      · exact ⟨by decide, by decide, by decide⟩
  | inf neg =>
    cases neg with
    | true =>
      intro c hc
      simp only [floatPrint, if_pos] at hc
      rcases List.mem_cons.1 hc with rfl | hc2
      · exact ⟨by decide, by decide, by decide⟩
      · rcases List.mem_cons.1 hc2 with rfl | hc3
        · exact ⟨by decide, by decide, by decide⟩
        · rcases List.mem_cons.1 hc3 with rfl | hc4
          · exact ⟨by decide, by decide, by decide⟩
          · rw [List.mem_singleton] at hc4
            rw [hc4]
            exact ⟨by decide, by decide, by decide⟩
    | false =>
      intro c hc
      simp only [floatPrint] at hc
      rcases List.mem_cons.1 hc with rfl | hc2
      · exact ⟨by decide, by decide, by decide⟩
      · rcases List.mem_cons.1 hc2 with rfl | hc3
        · exact ⟨by decide, by decide, by decide⟩
        · rw [List.mem_singleton] at hc3
          rw [hc3]
          exact ⟨by decide, by decide, by decide⟩
  | nan =>
    intro c hc
    simp only [floatPrint] at hc
    rcases List.mem_cons.1 hc with rfl | hc2
    · exact ⟨by decide, by decide, by decide⟩
    · rcases List.mem_cons.1 hc2 with rfl | hc3
      · exact ⟨by decide, by decide, by decide⟩
      · rw [List.mem_singleton] at hc3
        rw [hc3]
        exact ⟨by decide, by decide, by decide⟩

theorem floatPrint_trim (f : PyFloat) : trimWs (floatPrint f) = floatPrint f := by
  refine trimWs_eq_self _ ?_ ?_
  · intro c h
    exact (floatPrint_safe f c (head?_mem _ c h)).1
  · intro c h
    exact (floatPrint_safe f c (getLast?_mem _ c h)).1

theorem lowEq_false_of_dot (b kw : Str) (hdot : '.' ∈ b) (hkw : '.' ∉ kw) :
    lowEq b kw = false := by
  by_contra h
  rw [Bool.not_eq_false, lowEq, beq_iff_eq] at h
  have hmem : ('.' : Char).toLower ∈ b.map Char.toLower :=
    List.mem_map_of_mem Char.toLower hdot
  rw [h] at hmem
  have hdd : ('.' : Char).toLower = '.' := by decide
  rw [hdd] at hmem
  exact hkw hmem

theorem isEmpty_false_of_ne_nil (l : Str) (h : l ≠ []) : l.isEmpty = false := by
  cases l with
  | nil => exact absurd rfl h
  | cons c cs => rfl

theorem floatMantissa_core (neg : Bool) (ds fs : Str)
    (hds : ∀ c ∈ ds, c.isDigit = true) (hfs : ∀ c ∈ fs, c.isDigit = true)
    (hne : (ds.isEmpty && fs.isEmpty) = false) :
    floatMantissa neg (ds ++ '.' :: fs) =
      some (canon
        (if neg then -(natFrom (ds ++ fs) : Int) else (natFrom (ds ++ fs) : Int))
        (-(fs.length : Int))) := by
  unfold floatMantissa
  rw [spanDigits_split ds ('.' :: fs) hds
    (by intro c h; injection h with h2; rw [← h2]; decide)]
  simp only []
  rw [spanDigits_all fs hfs]
  simp only []
  rw [hne]
  rfl

theorem natFrom_single_zero : natFrom ['0'] = 0 := by decide

theorem floatMantissa_natPointStr (neg : Bool) (n : Nat) (e : Int)
    (_hn : n ≠ 0) (hd10 : ¬ (n : Int) % 10 = 0) :
    floatMantissa neg (natPointStr n e) =
      some (.fin (if neg then -(n : Int) else (n : Int)) e) := by
  have hm0 : (if neg then -(n : Int) else (n : Int)) ≠ 0 := by
    cases neg <;> simp <;> omega
  have hm10 : ¬ (if neg then -(n : Int) else (n : Int)) % 10 = 0 := by
    cases neg <;> simp <;> omega
  unfold natPointStr
  by_cases h1 : 0 ≤ e
  · -- e ≥ 0: digits, padding zeros, then ".0"
    rw [if_pos h1]
    have hds : ∀ c ∈ digitsOf n ++ List.replicate e.toNat '0', c.isDigit = true := by
      intro c hc
      rcases List.mem_append.1 hc with hm | hm
      · exact digitsOf_digits n c hm
      · rw [List.eq_of_mem_replicate hm]; decide
    have hdsne : digitsOf n ++ List.replicate e.toNat '0' ≠ [] := by
      cases hd : digitsOf n with
      | nil => exact absurd hd (digitsOf_ne_nil n)
      | cons d dt => simp [hd]
    have hne : ((digitsOf n ++ List.replicate e.toNat '0').isEmpty
        && (['0'] : Str).isEmpty) = false := by
      rw [isEmpty_false_of_ne_nil _ hdsne]
      rfl
    rw [show (digitsOf n ++ List.replicate e.toNat '0' ++ ['.', '0'] : Str)
      = (digitsOf n ++ List.replicate e.toNat '0') ++ '.' :: ['0'] from rfl]
    rw [floatMantissa_core neg _ ['0'] hds
      (by intro c hc; rw [List.mem_singleton] at hc; rw [hc]; decide) hne]
    have hval : natFrom ((digitsOf n ++ List.replicate e.toNat '0') ++ ['0'])
        = n * 10 ^ (e.toNat + 1) := by
      rw [natFrom_append, natFrom_append, natFrom_digitsOf, natFrom_replicate_zero,
        natFrom_single_zero, List.length_replicate, List.length_singleton]
      ring
    rw [hval]
    congr 1
    have hcast : (if neg then -((n * 10 ^ (e.toNat + 1) : Nat) : Int)
        else ((n * 10 ^ (e.toNat + 1) : Nat) : Int))
        = (if neg then -(n : Int) else (n : Int)) * 10 ^ (e.toNat + 1) := by
      cases neg <;> simp
    rw [hcast]
    have hexp : (-(([ '0' ] : Str).length : Int)) = e - ((e.toNat + 1 : Nat) : Int) := by
      simp only [List.length_singleton]
      omega
    rw [hexp]
    exact canon_pow (e.toNat + 1) _ e hm0 hm10
  · rw [if_neg h1]
    by_cases h2 : (-e).toNat < (digitsOf n).length
    · -- e < 0 and the point lands inside the digits
      rw [if_pos h2]
      have htake : ∀ c ∈ (digitsOf n).take ((digitsOf n).length - (-e).toNat),
          c.isDigit = true := by
        intro c hc
        exact digitsOf_digits n c (List.take_subset _ _ hc)
      have hdrop : ∀ c ∈ (digitsOf n).drop ((digitsOf n).length - (-e).toNat),
          c.isDigit = true := by
        intro c hc
        exact digitsOf_digits n c (List.drop_subset _ _ hc)
      have htk : (digitsOf n).take ((digitsOf n).length - (-e).toNat) ≠ [] := by
        refine List.ne_nil_of_length_pos ?_
        rw [List.length_take]
        omega
      have htne : (((digitsOf n).take ((digitsOf n).length - (-e).toNat)).isEmpty
          && ((digitsOf n).drop ((digitsOf n).length - (-e).toNat)).isEmpty) = false := by
        rw [isEmpty_false_of_ne_nil _ htk]
        rfl
      rw [floatMantissa_core neg _ _ htake hdrop htne]
      rw [List.take_append_drop, natFrom_digitsOf]
      congr 1
      rw [List.length_drop]
      have hk : ((digitsOf n).length - ((digitsOf n).length - (-e).toNat)) = (-e).toNat := by
        omega
      rw [hk]
      have he : (-(((-e).toNat : Nat) : Int)) = e := by omega
      rw [he]
      exact canon_of_nondvd _ e hm0 hm10
    · -- e < 0 and the value needs leading zeros after the point
      rw [if_neg h2]
      have hfs : ∀ c ∈ List.replicate ((-e).toNat - (digitsOf n).length) '0'
          ++ digitsOf n, c.isDigit = true := by
        intro c hc
        rcases List.mem_append.1 hc with hm | hm
        · rw [List.eq_of_mem_replicate hm]; decide
        · exact digitsOf_digits n c hm
      have hne2 : ((['0'] : Str).isEmpty
          && (List.replicate ((-e).toNat - (digitsOf n).length) '0'
              ++ digitsOf n).isEmpty) = false := by
        rfl
      show floatMantissa neg (['0'] ++ '.'
          :: (List.replicate ((-e).toNat - (digitsOf n).length) '0' ++ digitsOf n))
        = some (PyFloat.fin (if neg then -(n : Int) else (n : Int)) e)
      rw [floatMantissa_core neg ['0'] _
        (by intro c hc; rw [List.mem_singleton] at hc; rw [hc]; decide) hfs hne2]
      have hval : natFrom (['0'] ++ (List.replicate ((-e).toNat - (digitsOf n).length) '0'
          ++ digitsOf n)) = n := by
        rw [natFrom_append, natFrom_append, natFrom_digitsOf, natFrom_replicate_zero,
          natFrom_single_zero]
        ring
      rw [hval]
      congr 1
      rw [List.length_append, List.length_replicate]
      have hk : ((((-e).toNat - (digitsOf n).length) + (digitsOf n).length : Nat) : Int)
          = ((-e).toNat : Int) := by omega
      have he : (-((((-e).toNat - (digitsOf n).length) + (digitsOf n).length : Nat) : Int)) = e := by
        omega
      rw [he]
      exact canon_of_nondvd _ e hm0 hm10

theorem floatParse_floatPrint (f : PyFloat) (hc : canonB f = true) :
    floatParse (floatPrint f) = some f := by
  cases f with
  | nan => decide
  | inf neg => cases neg <;> decide
  | fin m e =>
    by_cases hm0 : m = 0
    · subst hm0
      have he : e = 0 := by simpa [canonB] using hc
      subst he
      decide
    · have hm10 : ¬ m % 10 = 0 := by simpa [canonB, hm0] using hc
      unfold floatParse
      rw [floatPrint_trim]
      by_cases hneg : m < 0
      · have hp2 : floatPrint (.fin m e) = '-' :: natPointStr m.natAbs e := by
          simp [floatPrint, hneg]
        rw [hp2]
        have hsb : signSplit ('-' :: natPointStr m.natAbs e)
            = (true, natPointStr m.natAbs e) := rfl
        rw [hsb]
        simp only []
        rw [lowEq_false_of_dot _ _ (dot_mem_natPointStr _ _) (by decide),
          lowEq_false_of_dot _ _ (dot_mem_natPointStr _ _) (by decide),
          lowEq_false_of_dot _ _ (dot_mem_natPointStr _ _) (by decide)]
        simp only [Bool.or_self, Bool.false_eq_true, if_false]
        rw [floatMantissa_natPointStr true m.natAbs e (by omega) (by omega)]
        have hcast : -((m.natAbs : Int)) = m := by omega
        simp only [if_true, hcast]
      · have hp2 : floatPrint (.fin m e) = natPointStr m.natAbs e := by
          simp [floatPrint, hneg]
        rw [hp2]
        obtain ⟨c, rest, hcr, hcd⟩ := natPointStr_cons m.natAbs e
        rw [hcr]
        have hsb : signSplit (c :: rest) = (false, c :: rest) := by
          unfold signSplit
          split
          · next r heq =>
            injection heq with h1 h2
            rw [h1] at hcd
            exact absurd hcd (by decide)
          · next r heq =>
            injection heq with h1 h2
            rw [h1] at hcd
            exact absurd hcd (by decide)
          · rfl
        rw [hsb]
        simp only []
        rw [← hcr]
        rw [lowEq_false_of_dot _ _ (dot_mem_natPointStr _ _) (by decide),
          lowEq_false_of_dot _ _ (dot_mem_natPointStr _ _) (by decide),
          lowEq_false_of_dot _ _ (dot_mem_natPointStr _ _) (by decide)]
        simp only [Bool.or_self, Bool.false_eq_true, if_false]
        rw [floatMantissa_natPointStr false m.natAbs e (by omega) (by omega)]
        have hcast : ((m.natAbs : Int)) = m := by omega
        simp only [if_false, Bool.false_eq_true, hcast]

theorem pyIsdigit_digitsOf (k : Nat) : pyIsdigit (digitsOf k) = true := by
  unfold pyIsdigit
  rw [isEmpty_false_of_ne_nil _ (digitsOf_ne_nil k)]
  rw [List.all_eq_true.2 (digitsOf_digits k)]
  rfl

theorem pyIsdigit_eq_false_of_mem (l : Str) (c0 : Char) (h : c0 ∈ l)
    (hd : c0.isDigit = false) : pyIsdigit l = false := by
  unfold pyIsdigit
  have hall : l.all Char.isDigit = false := by
    rw [List.all_eq_false]
    exact ⟨c0, h, by simp [hd]⟩
  rw [hall, Bool.and_false]

theorem intStr_trim (n : Int) : trimWs (intStr n) = intStr n := by
  unfold intStr
  by_cases hn : n < 0
  · rw [if_pos hn]
    refine trimWs_eq_self _ ?_ ?_
    · intro c h
      injection h with h'
      rw [← h']
      decide
    · intro c h
      have hm := getLast?_mem _ c h
      rcases List.mem_cons.1 hm with rfl | hm2
      · decide
      · exact isDigit_not_ws c (digitsOf_digits _ c hm2)
  · rw [if_neg hn]
    refine trimWs_eq_self _ ?_ ?_
    · intro c h
      exact isDigit_not_ws c (digitsOf_digits _ c (head?_mem _ c h))
    · intro c h
      exact isDigit_not_ws c (digitsOf_digits _ c (getLast?_mem _ c h))

theorem pyIntParse_intStr (n : Int) : pyIntParse (intStr n) = some n := by
  unfold pyIntParse
  rw [intStr_trim]
  unfold intStr
  by_cases hn : n < 0
  · rw [if_pos hn]
    show (match ('-' :: digitsOf n.natAbs : Str) with
      | '-' :: r => if pyIsdigit r then some (-(natFrom r : Int)) else none
      | '+' :: r => if pyIsdigit r then some ((natFrom r : Int)) else none
      | r => if pyIsdigit r then some ((natFrom r : Int)) else none) = some n
    rw [show (match ('-' :: digitsOf n.natAbs : Str) with
      | '-' :: r => if pyIsdigit r then some (-(natFrom r : Int)) else none
      | '+' :: r => if pyIsdigit r then some ((natFrom r : Int)) else none
      | r => if pyIsdigit r then some ((natFrom r : Int)) else none)
      = if pyIsdigit (digitsOf n.natAbs) then
          some (-(natFrom (digitsOf n.natAbs) : Int)) else none from rfl]
    rw [pyIsdigit_digitsOf, if_pos rfl, natFrom_digitsOf]
    congr 1
    omega
  · rw [if_neg hn]
    cases hd : digitsOf n.natAbs with
    | nil => exact absurd hd (digitsOf_ne_nil _)
    | cons d dt =>
      have hdd : d.isDigit = true := digitsOf_digits _ d (hd ▸ List.mem_cons_self d dt)
      show (match (d :: dt : Str) with
        | '-' :: r => if pyIsdigit r then some (-(natFrom r : Int)) else none
        | '+' :: r => if pyIsdigit r then some ((natFrom r : Int)) else none
        | r => if pyIsdigit r then some ((natFrom r : Int)) else none) = some n
      split
      · next r heq =>
        injection heq with h1 h2
        rw [h1] at hdd
        exact absurd hdd (by decide)
      · next r heq =>
        injection heq with h1 h2
        rw [h1] at hdd
        exact absurd hdd (by decide)
      · next t2 hne1 hne2 =>
        rw [show pyIsdigit (d :: dt) = pyIsdigit (digitsOf n.natAbs) from by rw [hd],
          pyIsdigit_digitsOf, if_pos rfl]
        rw [show natFrom (d :: dt) = natFrom (digitsOf n.natAbs) from by rw [hd],
          natFrom_digitsOf]
        congr 1
        omega

theorem attrToValue_intStr (n : Int) :
    attributeToValue (intStr n) = .ok (.int n) := by
  unfold intStr
  by_cases hn : n < 0
  · rw [if_pos hn]
    show (if ('-' : Char) = '"' then
        Except.ok (AttrValue.str (stripQuotes ('-' :: digitsOf n.natAbs)))
      else if pyIsdigit ('-' :: digitsOf n.natAbs)
          || ('-' = '-' && pyIsdigit (digitsOf n.natAbs)) then
        Except.ok (AttrValue.int (match ('-' :: digitsOf n.natAbs : Str) with
          | '-' :: r => -(natFrom r : Int)
          | r => (natFrom r : Int)))
      else
        match floatParse ('-' :: digitsOf n.natAbs) with
        | some f => Except.ok (AttrValue.flt f)
        | none => Except.ok (AttrValue.str ('-' :: digitsOf n.natAbs)))
      = Except.ok (AttrValue.int n)
    rw [if_neg (by decide)]
    have hcond : (pyIsdigit ('-' :: digitsOf n.natAbs)
        || (('-' : Char) = '-' && pyIsdigit (digitsOf n.natAbs))) = true := by
      rw [pyIsdigit_digitsOf]
      simp
    rw [if_pos hcond]
    rw [show (match ('-' :: digitsOf n.natAbs : Str) with
      | '-' :: r => -(natFrom r : Int)
      | r => (natFrom r : Int)) = -(natFrom (digitsOf n.natAbs) : Int) from rfl]
    rw [natFrom_digitsOf]
    congr 2
    omega
  · rw [if_neg hn]
    cases hd : digitsOf n.natAbs with
    | nil => exact absurd hd (digitsOf_ne_nil _)
    | cons d dt =>
      have hdd : d.isDigit = true := digitsOf_digits _ d (hd ▸ List.mem_cons_self d dt)
      show (if d = '"' then
          Except.ok (AttrValue.str (stripQuotes (d :: dt)))
        else if pyIsdigit (d :: dt) || (d = '-' && pyIsdigit dt) then
          Except.ok (AttrValue.int (match (d :: dt : Str) with
            | '-' :: r => -(natFrom r : Int)
            | r => (natFrom r : Int)))
        else
          match floatParse (d :: dt) with
          | some f => Except.ok (AttrValue.flt f)
          | none => Except.ok (AttrValue.str (d :: dt)))
        = Except.ok (AttrValue.int n)
      rw [if_neg (by
        intro hq
        rw [hq] at hdd
        exact absurd hdd (by decide))]
      have hcond : (pyIsdigit (d :: dt) || (d = '-' && pyIsdigit dt)) = true := by
        rw [show pyIsdigit (d :: dt) = pyIsdigit (digitsOf n.natAbs) from by rw [hd],
          pyIsdigit_digitsOf]
        rfl
      rw [if_pos hcond]
      have hmatch : (match (d :: dt : Str) with
          | '-' :: r => -(natFrom r : Int)
          | r => (natFrom r : Int)) = (natFrom (d :: dt) : Int) := by
        split
        · next r heq =>
          injection heq with h1 h2
          rw [h1] at hdd
          exact absurd hdd (by decide)
        · rfl
      rw [hmatch]
      rw [show natFrom (d :: dt) = natFrom (digitsOf n.natAbs) from by rw [hd],
        natFrom_digitsOf]
      congr 2
      omega

theorem attrToValue_quoted (s : Str) (hh : ∀ c, s.head? = some c → c ≠ '"')
    (ht : ∀ c, s.getLast? = some c → c ≠ '"') :
    attributeToValue ('"' :: (s ++ ['"'])) = .ok (.str s) := by
  show (if ('"' : Char) = '"' then
      Except.ok (AttrValue.str (stripQuotes ('"' :: (s ++ ['"']))))
    else if pyIsdigit ('"' :: (s ++ ['"']))
        || ('"' = '-' && pyIsdigit (s ++ ['"'])) then
      Except.ok (AttrValue.int (match ('"' :: (s ++ ['"']) : Str) with
        | '-' :: r => -(natFrom r : Int)
        | r => (natFrom r : Int)))
    else
      match floatParse ('"' :: (s ++ ['"'])) with
      | some f => Except.ok (AttrValue.flt f)
      | none => Except.ok (AttrValue.str ('"' :: (s ++ ['"']))))
    = Except.ok (AttrValue.str s)
  rw [if_pos rfl, stripQuotes_wrap s hh ht]

theorem attrToValue_floatPrint (f : PyFloat) (hc : canonB f = true) :
    attributeToValue (floatPrint f) = .ok (.flt f) := by
  cases f with
  | nan => rfl
  | inf neg => cases neg <;> rfl
  | fin m e =>
    by_cases hm0 : m = 0
    · subst hm0
      have he : e = 0 := by simpa [canonB] using hc
      subst he
      rfl
    · have hpp := floatParse_floatPrint (.fin m e) hc
      by_cases hneg : m < 0
      · have hp2 : floatPrint (.fin m e) = '-' :: natPointStr m.natAbs e := by
          simp [floatPrint, hneg]
        rw [hp2] at hpp ⊢
        show (if ('-' : Char) = '"' then
            Except.ok (AttrValue.str (stripQuotes ('-' :: natPointStr m.natAbs e)))
          else if pyIsdigit ('-' :: natPointStr m.natAbs e)
              || ('-' = '-' && pyIsdigit (natPointStr m.natAbs e)) then
            Except.ok (AttrValue.int (match ('-' :: natPointStr m.natAbs e : Str) with
              | '-' :: r => -(natFrom r : Int)
              | r => (natFrom r : Int)))
          else
            match floatParse ('-' :: natPointStr m.natAbs e) with
            | some g => Except.ok (AttrValue.flt g)
            | none => Except.ok (AttrValue.str ('-' :: natPointStr m.natAbs e)))
          = Except.ok (AttrValue.flt (PyFloat.fin m e))
        rw [if_neg (by decide)]
        have hc1 : pyIsdigit ('-' :: natPointStr m.natAbs e) = false :=
          pyIsdigit_eq_false_of_mem _ '-' (List.mem_cons_self _ _) (by decide)
        have hc2 : pyIsdigit (natPointStr m.natAbs e) = false :=
          pyIsdigit_eq_false_of_mem _ '.' (dot_mem_natPointStr _ _) (by decide)
        rw [if_neg (by rw [hc1, hc2]; simp)]
        rw [hpp]
      · have hp2 : floatPrint (.fin m e) = natPointStr m.natAbs e := by
          simp [floatPrint, hneg]
        rw [hp2] at hpp ⊢
        obtain ⟨c, rest, hcr, hcd⟩ := natPointStr_cons m.natAbs e
        rw [hcr] at hpp ⊢
        show (if c = '"' then
            Except.ok (AttrValue.str (stripQuotes (c :: rest)))
          else if pyIsdigit (c :: rest) || (c = '-' && pyIsdigit rest) then
            Except.ok (AttrValue.int (match (c :: rest : Str) with
              | '-' :: r => -(natFrom r : Int)
              | r => (natFrom r : Int)))
          else
            match floatParse (c :: rest) with
            | some g => Except.ok (AttrValue.flt g)
            | none => Except.ok (AttrValue.str (c :: rest)))
          = Except.ok (AttrValue.flt (PyFloat.fin m e))
        rw [if_neg (isDigit_ne c hcd).2.2.1]
        have hc1 : pyIsdigit (c :: rest) = false := by
          refine pyIsdigit_eq_false_of_mem _ '.' ?_ (by decide)
          rw [← hcr]
          exact dot_mem_natPointStr _ _
        have hc2 : (decide (c = '-') && pyIsdigit rest) = false := by
          rw [decide_eq_false (isDigit_ne c hcd).2.2.2.2.1]
          rfl
        rw [if_neg (by rw [hc1, hc2]; simp)]
        rw [hpp]

theorem splitCh_nil (sep : Char) : splitCh sep [] = [[]] := rfl

theorem splitCh_ne_nil (sep : Char) (l : Str) : splitCh sep l ≠ [] := by
  cases l with
  | nil => simp [splitCh]
  | cons c cs =>
    unfold splitCh
    by_cases h : c = sep
    · simp [h]
    · rw [if_neg h]
      split <;> simp

theorem splitCh_not_mem (sep : Char) (l : Str) (h : sep ∉ l) :
    splitCh sep l = [l] := by
  induction l with
  | nil => rfl
  | cons c cs ih =>
    have hc : ¬ c = sep := by
      intro hcc
      exact h (hcc ▸ List.mem_cons_self c cs)
    have hcs := ih (fun hm => h (List.mem_cons_of_mem c hm))
    unfold splitCh
    rw [if_neg hc, hcs]

theorem splitCh_append (sep : Char) (xs ys : Str) (h : sep ∉ xs) :
    splitCh sep (xs ++ sep :: ys) = xs :: splitCh sep ys := by
  induction xs with
  | nil =>
    have hredex : splitCh sep (sep :: ys)
        = if sep = sep then [] :: splitCh sep ys
          else match splitCh sep ys with
            | [] => [[sep]]
            | h :: t => (sep :: h) :: t := rfl
    rw [List.nil_append, hredex, if_pos rfl]
  | cons x xt ih =>
    have hx : ¬ x = sep := by
      intro hxx
      exact h (hxx ▸ List.mem_cons_self x xt)
    have hxt := ih (fun hm => h (List.mem_cons_of_mem x hm))
    rw [List.cons_append]
    have hredex : splitCh sep (x :: (xt ++ sep :: ys))
        = if x = sep then [] :: splitCh sep (xt ++ sep :: ys)
          else match splitCh sep (xt ++ sep :: ys) with
            | [] => [[x]]
            | h :: t => (x :: h) :: t := rfl
    rw [hredex, if_neg hx, hxt]

theorem mem_splitCh_not (sep : Char) (l : Str) :
    ∀ piece ∈ splitCh sep l, sep ∉ piece := by
  induction l with
  | nil =>
    intro piece hp
    rw [splitCh_nil, List.mem_singleton] at hp
    subst hp
    simp
  | cons c cs ih =>
    intro piece hp
    unfold splitCh at hp
    by_cases h : c = sep
    · rw [if_pos h] at hp
      rcases List.mem_cons.1 hp with rfl | hm
      · simp
      · exact ih piece hm
    · rw [if_neg h] at hp
      cases hs : splitCh sep cs with
      | nil => exact absurd hs (splitCh_ne_nil sep cs)
      | cons p0 pt =>
        rw [hs] at hp
        rcases List.mem_cons.1 hp with rfl | hm
        · intro hmem
          rcases List.mem_cons.1 hmem with hc | hc
          · exact h hc.symm
          · exact ih p0 (hs ▸ List.mem_cons_self p0 pt) hc
        · exact ih piece (hs ▸ List.mem_cons_of_mem p0 hm)

theorem mem_splitCh_subset (sep : Char) (l : Str) :
    ∀ piece ∈ splitCh sep l, ∀ x ∈ piece, x ∈ l := by
  induction l with
  | nil =>
    intro piece hp
    rw [splitCh_nil, List.mem_singleton] at hp
    subst hp
    intro x hx
    exact hx
  | cons c cs ih =>
    intro piece hp x hx
    unfold splitCh at hp
    by_cases h : c = sep
    · rw [if_pos h] at hp
      rcases List.mem_cons.1 hp with rfl | hm
      · cases hx
      · exact List.mem_cons_of_mem c (ih piece hm x hx)
    · rw [if_neg h] at hp
      cases hs : splitCh sep cs with
      | nil => exact absurd hs (splitCh_ne_nil sep cs)
      | cons p0 pt =>
        rw [hs] at hp
        rcases List.mem_cons.1 hp with rfl | hm
        · rcases List.mem_cons.1 hx with rfl | hm2
          · exact List.mem_cons_self x cs
          · exact List.mem_cons_of_mem c
              (ih p0 (hs ▸ List.mem_cons_self p0 pt) x hm2)
        · exact List.mem_cons_of_mem c (ih piece (hs ▸ List.mem_cons_of_mem p0 hm) x hx)

theorem exMapM_map_ok {α β γ : Type} (g : β → Except PyErr γ) (pf : α → β)
    (hf : α → γ) :
    ∀ l : List α, (∀ a ∈ l, g (pf a) = .ok (hf a)) →
      exMapM g (l.map pf) = .ok (l.map hf) := by
  intro l
  induction l with
  | nil => intro _; rfl
  | cons a t ih =>
    intro h
    rw [List.map_cons, List.map_cons]
    show (do
      let b ← g (pf a)
      let bs ← exMapM g (t.map pf)
      Except.ok (b :: bs)) = Except.ok (hf a :: t.map hf)
    rw [h a (List.mem_cons_self a t)]
    simp only [Bind.bind, Except.bind]
    rw [ih (fun x hx => h x (List.mem_cons_of_mem a hx))]

theorem odInsert_not_mem {α : Type} :
    ∀ (acc : List (Str × α)) (k : Str) (v : α),
    k ∉ acc.map Prod.fst → odInsert acc (k, v) = acc ++ [(k, v)] := by
  intro acc
  induction acc with
  | nil => intro k v _; rfl
  | cons p t ih =>
    intro k v h
    rw [List.map_cons] at h
    have h1 : ¬ p.1 = k := by
      intro hk
      refine h ?_
      rw [← hk]
      exact List.mem_cons_self _ _
    show (if p.1 = k then (p.1, v) :: t else (p.1, p.2) :: odInsert t (k, v))
      = (p :: t) ++ [(k, v)]
    rw [if_neg h1, ih k v (fun hm => h (List.mem_cons_of_mem _ hm))]
    rfl

theorem foldl_odInsert_nodup {α : Type} :
    ∀ (ps acc : List (Str × α)),
    ((acc ++ ps).map Prod.fst).Nodup → ps.foldl odInsert acc = acc ++ ps := by
  intro ps
  induction ps with
  | nil => intro acc _; simp
  | cons p t ih =>
    intro acc h
    rw [List.foldl_cons]
    have hsplit : ((acc ++ p :: t).map Prod.fst)
        = acc.map Prod.fst ++ p.1 :: t.map Prod.fst := by
      rw [List.map_append, List.map_cons]
    rw [hsplit] at h
    have hdis := (List.nodup_append.1 h).2.2
    have hk : p.1 ∉ acc.map Prod.fst := by
      intro hm
      exact hdis hm (List.mem_cons_self _ _)
    have hstep : odInsert acc p = acc ++ [p] := odInsert_not_mem acc p.1 p.2 hk
    rw [hstep]
    have hassoc : (acc ++ [p]) ++ t = acc ++ p :: t := by
      rw [List.append_assoc, List.singleton_append]
    have hnd2 : (((acc ++ [p]) ++ t).map Prod.fst).Nodup := by
      rw [hassoc, hsplit]
      exact h
    rw [ih (acc ++ [p]) hnd2, hassoc]

theorem mem_intStr (n : Int) : ∀ c ∈ intStr n, c.isDigit = true ∨ c = '-' := by
  unfold intStr
  split_ifs with h1
  · intro c hc
    rcases List.mem_cons.1 hc with rfl | hm
    · exact Or.inr rfl
    · exact Or.inl (digitsOf_digits _ c hm)
  · intro c hc
    exact Or.inl (digitsOf_digits _ c hc)

theorem floatPrint_ne_nil (f : PyFloat) : floatPrint f ≠ [] := by
  cases f with
  | fin m e =>
    simp only [floatPrint]
    split_ifs with h1
    · simp
    · obtain ⟨c, rest, hcr, _⟩ := natPointStr_cons m.natAbs e
      rw [hcr]
      simp
  | inf neg => cases neg <;> simp [floatPrint]
  | nan => simp [floatPrint]

theorem valueToAttribute_ne_nil (v : AttrValue) : valueToAttribute v ≠ [] := by
  cases v with
  | str s => simp [valueToAttribute]
  | int n =>
    show intStr n ≠ []
    unfold intStr
    split_ifs with h1
    · simp
    · exact digitsOf_ne_nil _
  | flt f => exact floatPrint_ne_nil f

theorem valueToAttribute_chars (v : AttrValue) (hv : goodVal v) :
    ∀ c ∈ valueToAttribute v, c ≠ ' ' ∧ c ≠ ';' := by
  cases v with
  | str s =>
    obtain ⟨hsp, hsemi, _, _⟩ := hv
    intro c hc
    rcases List.mem_cons.1 hc with rfl | hm
    · exact ⟨by decide, by decide⟩
    · rcases List.mem_append.1 hm with hm2 | hm2
      · exact ⟨fun hcc => hsp (hcc ▸ hm2), fun hcc => hsemi (hcc ▸ hm2)⟩
      · rw [List.mem_singleton] at hm2
        rw [hm2]
        exact ⟨by decide, by decide⟩
  | int n =>
    intro c hc
    rcases mem_intStr n c hc with hd | rfl
    · exact ⟨(isDigit_ne c hd).2.1, (isDigit_ne c hd).1⟩
    · exact ⟨by decide, by decide⟩
  | flt f =>
    intro c hc
    have hs := floatPrint_safe f c hc
    refine ⟨?_, hs.2.1⟩
    intro hcc
    rw [hcc] at hs
    exact absurd hs.1 (by decide)

theorem valueToAttribute_last_not_ws (v : AttrValue) (hv : goodVal v) :
    ∀ c, (valueToAttribute v).getLast? = some c → pyWs c = false := by
  cases v with
  | str s =>
    intro c h
    have hform : (valueToAttribute (AttrValue.str s))
        = ('"' :: s) ++ ['"'] := rfl
    rw [hform, List.getLast?_concat] at h
    injection h with h'
    rw [← h']
    decide
  | int n =>
    intro c h
    rcases mem_intStr n c (getLast?_mem _ c h) with hd | rfl
    · exact isDigit_not_ws c hd
    · decide
  | flt f =>
    intro c h
    exact (floatPrint_safe f c (getLast?_mem _ c h)).1

theorem splitCh_joinPairs :
    ∀ (rest : List Str) (p : Str), ';' ∉ p → (∀ q ∈ rest, ';' ∉ q) →
    splitCh ';' (joinPairs (p :: rest) ++ [';'])
      = (p :: rest.map (fun q => ' ' :: q)) ++ [[]] := by
  intro rest
  induction rest with
  | nil =>
    intro p hp _
    show splitCh ';' (p ++ ';' :: []) = [p, []]
    rw [splitCh_append ';' p [] hp, splitCh_nil]
  | cons q rest' ih =>
    intro p hp hq
    show splitCh ';' ((p ++ ';' :: ' ' :: joinPairs (q :: rest')) ++ [';'])
      = (p :: ((' ' :: q) :: rest'.map (fun r => ' ' :: r))) ++ [[]]
    have hassoc : ((p ++ ';' :: ' ' :: joinPairs (q :: rest')) ++ [';'] : Str)
        = p ++ ';' :: (' ' :: (joinPairs (q :: rest') ++ [';'])) := by
      rw [List.append_assoc]
      rfl
    rw [hassoc, splitCh_append ';' p _ hp]
    have hih := ih q (hq q (List.mem_cons_self q rest'))
      (fun r hr => hq r (List.mem_cons_of_mem q hr))
    have hredex : splitCh ';' (' ' :: (joinPairs (q :: rest') ++ [';']))
        = if (' ' : Char) = ';' then
            [] :: splitCh ';' (joinPairs (q :: rest') ++ [';'])
          else match splitCh ';' (joinPairs (q :: rest') ++ [';']) with
            | [] => [[' ']]
            | h :: t => (' ' :: h) :: t := rfl
    rw [hredex, if_neg (by decide), hih]
    rfl

theorem map_trim_space (l : List Str) (h : ∀ x ∈ l, trimWs x = x) :
    (l.map (fun x => ' ' :: x)).map trimWs = l := by
  induction l with
  | nil => rfl
  | cons a t ih =>
    rw [List.map_cons, List.map_cons]
    rw [trimWs_cons_ws ' ' a (by decide), h a (List.mem_cons_self a t)]
    rw [ih (fun x hx => h x (List.mem_cons_of_mem a hx))]

theorem filter_keep (l : List Str) (h : ∀ x ∈ l, x ≠ []) :
    l.filter (fun f => !f.isEmpty) = l := by
  induction l with
  | nil => rfl
  | cons a t ih =>
    rw [List.filter_cons]
    rw [isEmpty_false_of_ne_nil a (h a (List.mem_cons_self a t))]
    simp only [Bool.not_false, if_pos]
    rw [ih (fun x hx => h x (List.mem_cons_of_mem a hx))]

theorem map_self {α : Type} (l : List α) : l.map (fun a => a) = l := by
  induction l with
  | nil => rfl
  | cons a t ih => rw [List.map_cons, ih]

theorem map_pairfun_fst (l : AttrMap) :
    ((l.map (fun p => (p.1, valueToAttribute p.2))).map Prod.fst)
      = l.map Prod.fst := by
  induction l with
  | nil => rfl
  | cons p t ih => rw [List.map_cons, List.map_cons, List.map_cons, ih]

theorem column9Dict_attrString (m : AttrMap)
    (hgood : ∀ p ∈ m, goodKey p.1 ∧ goodVal p.2)
    (hnd : (m.map Prod.fst).Nodup) :
    column9Dict (attrString m) = .ok m := by
  cases m with
  | nil => rfl
  | cons p0 mrest =>
    have henc : attrString (p0 :: mrest)
        = joinPairs ((p0 :: mrest).map
            (fun p => p.1 ++ ' ' :: valueToAttribute p.2)) ++ [';'] := rfl
    have hsemi : ∀ p ∈ (p0 :: mrest),
        ';' ∉ (p.1 ++ ' ' :: valueToAttribute p.2) := by
      intro p hp hmem
      obtain ⟨hk, hv⟩ := hgood p hp
      rcases List.mem_append.1 hmem with hm | hm
      · exact hk.2.2.1 hm
      · rcases List.mem_cons.1 hm with hc | hc
        · exact absurd hc.symm (by decide)
        · exact (valueToAttribute_chars p.2 hv ';' hc).2 rfl
    have hpne : ∀ p ∈ (p0 :: mrest),
        (p.1 ++ ' ' :: valueToAttribute p.2) ≠ [] := by
      intro p hp
      simp
    have htrim : ∀ p ∈ (p0 :: mrest),
        trimWs (p.1 ++ ' ' :: valueToAttribute p.2)
          = p.1 ++ ' ' :: valueToAttribute p.2 := by
      intro p hp
      obtain ⟨hk, hv⟩ := hgood p hp
      refine trimWs_eq_self _ ?_ ?_
      · intro c hc
        cases hk1 : p.1 with
        | nil => exact absurd hk1 hk.1
        | cons k0 kt =>
          rw [hk1, List.cons_append] at hc
          injection hc with hc2
          refine hk.2.2.2 c ?_
          rw [hk1, ← hc2]
          rfl
      · intro c hc
        rw [List.getLast?_append_of_ne_nil _ (by simp)] at hc
        cases hvt : valueToAttribute p.2 with
        | nil => exact absurd hvt (valueToAttribute_ne_nil p.2)
        | cons v0 vt =>
          rw [hvt, List.getLast?_cons_cons] at hc
          refine valueToAttribute_last_not_ws p.2 hv c ?_
          rw [hvt]
          exact hc
    have hseg : ∀ p ∈ (p0 :: mrest),
        segPair (p.1 ++ ' ' :: valueToAttribute p.2)
          = .ok (p.1, valueToAttribute p.2) := by
      intro p hp
      obtain ⟨hk, hv⟩ := hgood p hp
      unfold segPair
      rw [splitCh_append ' ' p.1 _ hk.2.1,
        splitCh_not_mem ' ' (valueToAttribute p.2)
          (fun hm => (valueToAttribute_chars p.2 hv ' ' hm).1 rfl)]
    have hconvel : ∀ p ∈ (p0 :: mrest),
        ((fun q => (attributeToValue q.2).map (fun v => (q.1, v)))
          ((fun q => (q.1, valueToAttribute q.2)) p)) = Except.ok p := by
      intro p hp
      obtain ⟨hk, hv⟩ := hgood p hp
      show (attributeToValue (valueToAttribute p.2)).map (fun v => (p.1, v))
        = Except.ok p
      cases hp2 : p.2 with
      | str s =>
        rw [hp2] at hv
        rw [show valueToAttribute (AttrValue.str s) = '"' :: (s ++ ['"']) from rfl]
        rw [attrToValue_quoted s hv.2.2.1 hv.2.2.2]
        show Except.ok (p.1, AttrValue.str s) = Except.ok p
        rw [← hp2]
      | int n =>
        rw [show valueToAttribute (AttrValue.int n) = intStr n from rfl]
        rw [attrToValue_intStr n]
        show Except.ok (p.1, AttrValue.int n) = Except.ok p
        rw [← hp2]
      | flt f =>
        rw [hp2] at hv
        rw [show valueToAttribute (AttrValue.flt f) = floatPrint f from rfl]
        rw [attrToValue_floatPrint f hv]
        show Except.ok (p.1, AttrValue.flt f) = Except.ok p
        rw [← hp2]
    show column9Dict (attrString (p0 :: mrest)) = .ok (p0 :: mrest)
    unfold column9Dict
    rw [henc, List.map_cons]
    rw [splitCh_joinPairs (mrest.map (fun p => p.1 ++ ' ' :: valueToAttribute p.2))
      (p0.1 ++ ' ' :: valueToAttribute p0.2)
      (hsemi p0 (List.mem_cons_self p0 mrest))
      (by
        intro q hq
        rcases List.mem_map.1 hq with ⟨p, hp, rfl⟩
        exact hsemi p (List.mem_cons_of_mem p0 hp))]
    rw [List.map_append, List.map_cons]
    rw [htrim p0 (List.mem_cons_self p0 mrest)]
    rw [map_trim_space (mrest.map (fun p => p.1 ++ ' ' :: valueToAttribute p.2))
      (by
        intro x hx
        rcases List.mem_map.1 hx with ⟨p, hp, rfl⟩
        exact htrim p (List.mem_cons_of_mem p0 hp))]
    rw [show (List.map trimWs [([] : Str)]) = [([] : Str)] from rfl]
    have hkept : List.filter (fun f => !List.isEmpty f)
        (((p0.1 ++ ' ' :: valueToAttribute p0.2)
          :: List.map (fun p => p.1 ++ ' ' :: valueToAttribute p.2) mrest) ++ [[]])
        = List.map (fun p => p.1 ++ ' ' :: valueToAttribute p.2) (p0 :: mrest) := by
      rw [List.filter_append]
      rw [show (List.filter (fun f => !List.isEmpty f) [([] : Str)]) = ([] : List Str)
        from rfl]
      rw [filter_keep _ (by
        intro x hx
        rcases List.mem_cons.1 hx with rfl | hm
        · exact hpne p0 (List.mem_cons_self p0 mrest)
        · rcases List.mem_map.1 hm with ⟨p, hp, rfl⟩
          exact hpne p (List.mem_cons_of_mem p0 hp))]
      rw [List.append_nil, List.map_cons]
    simp only []
    rw [hkept]
    simp only [Bind.bind]
    rw [exMapM_map_ok segPair (fun p => p.1 ++ ' ' :: valueToAttribute p.2)
      (fun p => (p.1, valueToAttribute p.2)) (p0 :: mrest) hseg]
    simp only [Except.bind]
    rw [foldl_odInsert_nodup ((p0 :: mrest).map (fun p => (p.1, valueToAttribute p.2))) []
      (by
        rw [List.nil_append, map_pairfun_fst]
        exact hnd)]
    rw [List.nil_append]
    rw [exMapM_map_ok (fun q => (attributeToValue q.2).map (fun v => (q.1, v)))
      (fun q => (q.1, valueToAttribute q.2)) (fun p => p) (p0 :: mrest) hconvel]
    rw [map_self]

/-- C6 (amended): `column_9_dict` splits each non-empty segment on EVERY space
(not only the first) and keeps only the first two chunks, so for a segment
`k ⬝ ' ' ⬝ a ⬝ ' ' ⬝ b` whose value part contains a space the decoded value is
built from the chunk `a` alone and the remainder `b` is dropped entirely; a
quoted value with a space such as `gene_name "my gene"` therefore decodes to
the string `my`, not `my gene`. -/
theorem c6_amended_value_is_second_chunk (k a b : Str)
    (hk0 : k ≠ []) (hksp : ' ' ∉ k) (hksemi : ';' ∉ k)
    (hkh : ∀ c, k.head? = some c → pyWs c = false)
    (hasp : ' ' ∉ a) (hasemi : ';' ∉ a)
    (hbsemi : ';' ∉ b) (hb0 : b ≠ [])
    (hbl : ∀ c, b.getLast? = some c → pyWs c = false) :
    column9Dict (k ++ ' ' :: a ++ ' ' :: b ++ [';'])
      = (attributeToValue a).map (fun v => [(k, v)]) := by
  have hsegsemi : ';' ∉ (k ++ ' ' :: (a ++ ' ' :: b)) := by
    intro hm
    rcases List.mem_append.1 hm with h1 | h1
    · exact hksemi h1
    · rcases List.mem_cons.1 h1 with h2 | h2
      · exact absurd h2 (by decide)
      · rcases List.mem_append.1 h2 with h3 | h3
        · exact hasemi h3
        · rcases List.mem_cons.1 h3 with h4 | h4
          · exact absurd h4 (by decide)
          · exact hbsemi h4
  have hform : (k ++ ' ' :: a ++ ' ' :: b ++ [';'])
      = (k ++ ' ' :: (a ++ ' ' :: b)) ++ ';' :: [] := by
    simp [List.append_assoc]
  have htr : trimWs (k ++ ' ' :: (a ++ ' ' :: b)) = k ++ ' ' :: (a ++ ' ' :: b) := by
    refine trimWs_eq_self _ ?_ ?_
    · intro c hc
      cases hk : k with
      | nil => exact absurd hk hk0
      | cons k0 kt =>
        rw [hk, List.cons_append] at hc
        injection hc with hc2
        refine hkh c ?_
        rw [hk, show (k0 :: kt : Str).head? = some k0 from rfl, hc2]
    · intro c hc
      have h2 : (k ++ ' ' :: (a ++ ' ' :: b)) = (k ++ ' ' :: a ++ [' ']) ++ b := by
        simp [List.append_assoc]
      rw [h2, List.getLast?_append_of_ne_nil _ hb0] at hc
      exact hbl c hc
  have hsegp : segPair (k ++ ' ' :: (a ++ ' ' :: b)) = .ok (k, a) := by
    unfold segPair
    rw [splitCh_append ' ' k _ hksp, splitCh_append ' ' a b hasp]
  have hex1 : exMapM segPair [k ++ ' ' :: (a ++ ' ' :: b)]
      = .ok [((k, a) : Str × Str)] := by
    have hredex : exMapM segPair [k ++ ' ' :: (a ++ ' ' :: b)]
        = Except.bind (segPair (k ++ ' ' :: (a ++ ' ' :: b)))
            (fun p => Except.ok [p]) := rfl
    rw [hredex, hsegp]
    rfl
  have hfil : List.filter (fun f => !List.isEmpty f)
      ((k ++ ' ' :: (a ++ ' ' :: b)) :: [([] : Str)])
      = [k ++ ' ' :: (a ++ ' ' :: b)] := by
    rw [List.filter_cons]
    rw [isEmpty_false_of_ne_nil _ (by simp)]
    simp only [Bool.not_false, if_pos]
    rfl
  unfold column9Dict
  rw [hform, splitCh_append ';' _ _ hsegsemi, splitCh_nil]
  rw [List.map_cons, htr, show List.map trimWs [([] : Str)] = [([] : Str)] from rfl]
  simp only []
  rw [hfil]
  simp only [Bind.bind]
  rw [hex1]
  simp only [Except.bind]
  rw [show (([((k, a) : Str × Str)]).foldl odInsert ([] : List (Str × Str))
      : List (Str × Str)) = [(k, a)] from rfl]
  rw [show exMapM (fun p => (attributeToValue p.2).map (fun v => (p.1, v)))
      ([((k, a) : Str × Str)])
      = Except.bind ((attributeToValue a).map (fun v => (k, v)))
          (fun q => Except.ok [q]) from rfl]
  cases hav : attributeToValue a with
  | error e => rfl
  | ok v => rfl

/-- C6 witness: for the column-9 text `gene_name "my gene";` the decoder keeps
only the first two space-chunks of the segment, yielding the single pair
`gene_name ↦ "my"` (the token `gene` is dropped and the quoted space is lost). -/
theorem c6_amended_value_is_second_chunk_witness :
    column9Dict "gene_name \"my gene\";".data
      = .ok [("gene_name".data, .str "my".data)] := by
  have h := c6_amended_value_is_second_chunk "gene_name".data "\"my".data
    "gene\"".data
    (by decide) (by decide) (by decide)
    (by
      intro c hc
      rw [show ("gene_name".data : Str).head? = some 'g' from rfl] at hc
      injection hc with h2
      rw [← h2]
      decide)
    (by decide) (by decide) (by decide) (by decide)
    (by
      intro c hc
      rw [show ("gene\"".data : Str).getLast? = some '"' from rfl] at hc
      injection hc with h2
      rw [← h2]
      decide)
  rw [show ("gene_name \"my gene\";".data : Str)
      = "gene_name".data ++ ' ' :: "\"my".data ++ ' ' :: "gene\"".data ++ [';']
      from rfl]
  rw [h]
  rfl

theorem exMapM_ok_forall2 {α β : Type} (g : α → Except PyErr β) :
    ∀ (l : List α) (bs : List β), exMapM g l = .ok bs →
      List.Forall₂ (fun a b => g a = .ok b) l bs := by
  intro l
  induction l with
  | nil =>
    intro bs h
    rw [show exMapM g ([] : List α) = .ok [] from rfl] at h
    injection h with h2
    rw [← h2]
    exact List.Forall₂.nil
  | cons a t ih =>
    intro bs h
    simp only [exMapM, Bind.bind] at h
    cases hga : g a with
    | error e =>
      rw [hga] at h
      simp only [Except.bind] at h
      cases h
    | ok b =>
      rw [hga] at h
      simp only [Except.bind] at h
      cases hmt : exMapM g t with
      | error e =>
        rw [hmt] at h
        simp only [Except.bind] at h
        cases h
      | ok bt =>
        rw [hmt] at h
        simp only [Except.bind] at h
        injection h with h2
        rw [← h2]
        exact List.Forall₂.cons hga (ih bt hmt)

theorem forall2_mem_right {α β : Type} (R : α → β → Prop)
    (l : List α) (bs : List β) (h : List.Forall₂ R l bs) :
    ∀ b ∈ bs, ∃ a ∈ l, R a b := by
  induction h with
  | nil => intro b hb; cases hb
  | cons hr ht ih =>
    intro b hb
    rcases List.mem_cons.1 hb with rfl | hb2
    · exact ⟨_, List.mem_cons_self _ _, hr⟩
    · obtain ⟨a, ha, har⟩ := ih b hb2
      exact ⟨a, List.mem_cons_of_mem _ ha, har⟩

theorem forall2_conv_keys (l : List (Str × Str)) (bs : AttrMap)
    (h : List.Forall₂ (fun p q =>
      (attributeToValue p.2).map (fun v => (p.1, v)) = .ok q) l bs) :
    bs.map Prod.fst = l.map Prod.fst := by
  induction h with
  | nil => rfl
  | cons hr ht ih =>
    rename_i p q t bt
    rw [List.map_cons, List.map_cons, ih]
    cases hav : attributeToValue p.2 with
    | error e =>
      rw [hav] at hr
      simp only [Except.map] at hr
      cases hr
    | ok v =>
      rw [hav] at hr
      simp only [Except.map] at hr
      injection hr with hr2
      rw [← hr2]

theorem mem_odInsert {α : Type} :
    ∀ (acc : List (Str × α)) (p q : Str × α), q ∈ odInsert acc p →
      q ∈ acc ∨ q = p := by
  intro acc
  induction acc with
  | nil =>
    intro p q hq
    rcases List.mem_singleton.1 hq with rfl
    exact Or.inr rfl
  | cons r t ih =>
    intro p q hq
    obtain ⟨k, v⟩ := p
    obtain ⟨k', v'⟩ := r
    rw [show odInsert ((k', v') :: t) (k, v)
        = if k' = k then (k', v) :: t else (k', v') :: odInsert t (k, v)
        from rfl] at hq
    by_cases hk : k' = k
    · rw [if_pos hk] at hq
      rcases List.mem_cons.1 hq with rfl | hq2
      · exact Or.inr (by rw [hk])
      · exact Or.inl (List.mem_cons_of_mem _ hq2)
    · rw [if_neg hk] at hq
      rcases List.mem_cons.1 hq with rfl | hq2
      · exact Or.inl (List.mem_cons_self _ _)
      · rcases ih (k, v) q hq2 with h | h
        · exact Or.inl (List.mem_cons_of_mem _ h)
        · exact Or.inr h

theorem mem_keys_odInsert {α : Type} (acc : List (Str × α)) (p : Str × α)
    (x : Str) (hx : x ∈ (odInsert acc p).map Prod.fst) :
    x ∈ acc.map Prod.fst ∨ x = p.1 := by
  rcases List.mem_map.1 hx with ⟨q, hq, rfl⟩
  rcases mem_odInsert acc p q hq with h | h
  · exact Or.inl (List.mem_map_of_mem Prod.fst h)
  · exact Or.inr (by rw [h])

theorem odInsert_keys_nodup {α : Type} :
    ∀ (acc : List (Str × α)) (p : Str × α),
      (acc.map Prod.fst).Nodup → ((odInsert acc p).map Prod.fst).Nodup := by
  intro acc
  induction acc with
  | nil =>
    intro p h
    simp [odInsert]
  | cons r t ih =>
    intro p h
    obtain ⟨k, v⟩ := p
    obtain ⟨k', v'⟩ := r
    rw [List.map_cons, List.nodup_cons] at h
    rw [show odInsert ((k', v') :: t) (k, v)
        = if k' = k then (k', v) :: t else (k', v') :: odInsert t (k, v)
        from rfl]
    by_cases hk : k' = k
    · rw [if_pos hk, List.map_cons, List.nodup_cons]
      exact ⟨h.1, h.2⟩
    · rw [if_neg hk, List.map_cons, List.nodup_cons]
      refine ⟨?_, ih (k, v) h.2⟩
      intro hmem
      rcases mem_keys_odInsert t (k, v) k' hmem with h2 | h2
      · exact h.1 h2
      · exact hk h2

theorem foldl_odInsert_keys_nodup {α : Type} :
    ∀ (ps acc : List (Str × α)), (acc.map Prod.fst).Nodup →
      ((ps.foldl odInsert acc).map Prod.fst).Nodup := by
  intro ps
  induction ps with
  | nil => intro acc h; exact h
  | cons p t ih =>
    intro acc h
    rw [List.foldl_cons]
    exact ih (odInsert acc p) (odInsert_keys_nodup acc p h)

theorem mem_foldl_odInsert {α : Type} :
    ∀ (ps acc : List (Str × α)) (q : Str × α),
      q ∈ ps.foldl odInsert acc → q ∈ acc ∨ q ∈ ps := by
  intro ps
  induction ps with
  | nil => intro acc q h; exact Or.inl h
  | cons p t ih =>
    intro acc q h
    rw [List.foldl_cons] at h
    rcases ih (odInsert acc p) q h with h2 | h2
    · rcases mem_odInsert acc p q h2 with h3 | h3
      · exact Or.inl h3
      · exact Or.inr (by rw [h3]; exact List.mem_cons_self p t)
    · exact Or.inr (List.mem_cons_of_mem p h2)

theorem splitCh_first_prefix (sep : Char) :
    ∀ (f k : Str) (t : List Str), splitCh sep f = k :: t →
      f = k ∨ ∃ ys, f = k ++ sep :: ys := by
  intro f
  induction f with
  | nil =>
    intro k t h
    rw [splitCh_nil] at h
    injection h with h1 h2
    exact Or.inl h1
  | cons c cs ih =>
    intro k t h
    have hredex : splitCh sep (c :: cs)
        = if c = sep then [] :: splitCh sep cs
          else match splitCh sep cs with
            | [] => [[c]]
            | h :: t => (c :: h) :: t := rfl
    rw [hredex] at h
    by_cases hc : c = sep
    · rw [if_pos hc] at h
      injection h with h1 h2
      refine Or.inr ⟨cs, ?_⟩
      rw [← h1, hc]
      rfl
    · rw [if_neg hc] at h
      cases hs : splitCh sep cs with
      | nil => exact absurd hs (splitCh_ne_nil sep cs)
      | cons p0 pt =>
        rw [hs] at h
        injection h with h1 h2
        rcases ih p0 pt hs with h3 | ⟨ys, h3⟩
        · refine Or.inl ?_
          rw [← h1, h3]
        · refine Or.inr ⟨ys, ?_⟩
          rw [← h1, h3]
          rfl

theorem segPair_ok (f : Str) (k a : Str) (h : segPair f = .ok (k, a)) :
    ∃ rest, splitCh ' ' f = k :: a :: rest := by
  unfold segPair at h
  cases hs : splitCh ' ' f with
  | nil =>
    rw [hs] at h
    cases h
  | cons p0 pt =>
    cases pt with
    | nil =>
      rw [hs] at h
      cases h
    | cons p1 pt2 =>
      rw [hs] at h
      injection h with h2
      injection h2 with hk ha
      exact ⟨pt2, by rw [hk, ha]⟩

theorem attributeToValue_ok_props (a : Str) (v : AttrValue)
    (hsp : ' ' ∉ a) (hsemi : ';' ∉ a) (h : attributeToValue a = .ok v) :
    (∀ s, v = .str s →
      ' ' ∉ s ∧ ';' ∉ s ∧ (∀ c, s.head? = some c → c ≠ '"'))
    ∧ (∀ g, v = .flt g → canonB g = true) := by
  cases a with
  | nil => cases h
  | cons c rest =>
    have hredex : attributeToValue (c :: rest)
        = if c = '"' then Except.ok (AttrValue.str (stripQuotes (c :: rest)))
          else if pyIsdigit (c :: rest) || (c = '-' && pyIsdigit rest) then
            Except.ok (AttrValue.int (match (c :: rest : Str) with
              | '-' :: r => -(natFrom r : Int)
              | r => (natFrom r : Int)))
          else match floatParse (c :: rest) with
            | some f => Except.ok (AttrValue.flt f)
            | none => Except.ok (AttrValue.str (c :: rest)) := rfl
    rw [hredex] at h
    by_cases hq : c = '"'
    · rw [if_pos hq] at h
      injection h with h2
      refine ⟨?_, ?_⟩
      · intro s hs
        rw [← h2] at hs
        injection hs with hs2
        refine ⟨?_, ?_, ?_⟩
        · intro hm
          refine hsp (mem_stripQuotes _ _ ?_)
          rw [hs2]
          exact hm
        · intro hm
          refine hsemi (mem_stripQuotes _ _ ?_)
          rw [hs2]
          exact hm
        · intro c0 hc0
          refine stripQuotes_head (c :: rest) c0 ?_
          rw [hs2]
          exact hc0
      · intro g hg
        rw [← h2] at hg
        cases hg
    · rw [if_neg hq] at h
      by_cases hd : (pyIsdigit (c :: rest) || (c = '-' && pyIsdigit rest)) = true
      · rw [if_pos hd] at h
        injection h with h2
        refine ⟨?_, ?_⟩
        · intro s hs
          rw [← h2] at hs
          cases hs
        · intro g hg
          rw [← h2] at hg
          cases hg
      · rw [if_neg hd] at h
        cases hf : floatParse (c :: rest) with
        | some f =>
          rw [hf] at h
          injection h with h2
          refine ⟨?_, ?_⟩
          · intro s hs
            rw [← h2] at hs
            cases hs
          · intro g hg
            rw [← h2] at hg
            injection hg with hg2
            rw [← hg2]
            exact floatParse_canonB _ f hf
        | none =>
          rw [hf] at h
          injection h with h2
          refine ⟨?_, ?_⟩
          · intro s hs
            rw [← h2] at hs
            injection hs with hs2
            refine ⟨?_, ?_, ?_⟩
            · intro hm
              rw [← hs2] at hm
              exact hsp hm
            · intro hm
              rw [← hs2] at hm
              exact hsemi hm
            · intro c0 hc0
              rw [← hs2] at hc0
              rw [show (c :: rest : Str).head? = some c from rfl] at hc0
              injection hc0 with hc2
              rw [← hc2]
              exact hq
          · intro g hg
            rw [← h2] at hg
            cases hg

theorem column9Dict_ok_good (raw : Str) (m : AttrMap)
    (h : column9Dict raw = .ok m) :
    (∀ p ∈ m, goodKey p.1
      ∧ (∀ s, p.2 = .str s →
          ' ' ∉ s ∧ ';' ∉ s ∧ (∀ c, s.head? = some c → c ≠ '"'))
      ∧ (∀ g, p.2 = .flt g → canonB g = true))
    ∧ (m.map Prod.fst).Nodup := by
  unfold column9Dict at h
  simp only [Bind.bind] at h
  cases h1 : exMapM segPair
      (((splitCh ';' raw).map trimWs).filter (fun f => !f.isEmpty)) with
  | error e =>
    rw [h1] at h
    simp only [Except.bind] at h
    cases h
  | ok pairs =>
    rw [h1] at h
    simp only [Except.bind] at h
    have hkeys : m.map Prod.fst = (pairs.foldl odInsert []).map Prod.fst :=
      forall2_conv_keys _ m (exMapM_ok_forall2 _ _ m h)
    refine ⟨?_, ?_⟩
    · intro p hp
      obtain ⟨q, hq, hqr⟩ := forall2_mem_right _ _ m
        (exMapM_ok_forall2 _ _ m h) p hp
      have hqpairs : q ∈ pairs := by
        rcases mem_foldl_odInsert pairs [] q hq with h2 | h2
        · cases h2
        · exact h2
      obtain ⟨fseg, hf, hfq⟩ := forall2_mem_right _ _ pairs
        (exMapM_ok_forall2 segPair _ pairs h1) q hqpairs
      have hfmem := (List.mem_filter.1 hf).1
      have hfne : fseg ≠ [] := by
        intro hnil
        have h2 := (List.mem_filter.1 hf).2
        rw [hnil] at h2
        exact absurd h2 (by decide)
      obtain ⟨g0, hg0, hg0e⟩ := List.mem_map.1 hfmem
      have hfsemi : ';' ∉ fseg := by
        intro hm
        rw [← hg0e] at hm
        exact mem_splitCh_not ';' raw g0 hg0 (mem_trimWs g0 ';' hm)
      have hfhead : ∀ c, fseg.head? = some c → pyWs c = false := by
        intro c hc
        rw [← hg0e] at hc
        exact trimWs_head_not_ws g0 c hc
      obtain ⟨rest, hsp⟩ := segPair_ok fseg q.1 q.2 hfq
      have hkmem : q.1 ∈ splitCh ' ' fseg := by
        rw [hsp]
        exact List.mem_cons_self _ _
      have hamem : q.2 ∈ splitCh ' ' fseg := by
        rw [hsp]
        exact List.mem_cons_of_mem _ (List.mem_cons_self _ _)
      have hknonnil : q.1 ≠ [] := by
        intro hnil
        rw [hnil] at hsp
        rcases splitCh_first_prefix ' ' fseg [] (q.2 :: rest) hsp with h2 | ⟨ys, h2⟩
        · exact hfne h2
        · rw [h2] at hfhead
          exact absurd (hfhead ' ' rfl) (by decide)
      have hkhead : ∀ c, q.1.head? = some c → pyWs c = false := by
        intro c hc
        rcases splitCh_first_prefix ' ' fseg q.1 (q.2 :: rest) hsp with h2 | ⟨ys, h2⟩
        · refine hfhead c ?_
          rw [h2]
          exact hc
        · cases hk1 : q.1 with
          | nil => exact absurd hk1 hknonnil
          | cons k0 kt =>
            rw [hk1] at hc
            injection hc with hc2
            refine hfhead c ?_
            rw [h2, hk1, List.cons_append]
            rw [show ((k0 :: (kt ++ ' ' :: ys) : Str)).head? = some k0 from rfl, hc2]
      have hgk : goodKey q.1 := by
        refine ⟨hknonnil, ?_, ?_, hkhead⟩
        · exact mem_splitCh_not ' ' fseg q.1 hkmem
        · intro hm
          exact hfsemi (mem_splitCh_subset ' ' fseg q.1 hkmem ';' hm)
      have hasp : ' ' ∉ q.2 := mem_splitCh_not ' ' fseg q.2 hamem
      have hasemi : ';' ∉ q.2 := by
        intro hm
        exact hfsemi (mem_splitCh_subset ' ' fseg q.2 hamem ';' hm)
      cases hav : attributeToValue q.2 with
      | error e =>
        rw [hav] at hqr
        simp only [Except.map] at hqr
        cases hqr
      | ok v =>
        rw [hav] at hqr
        simp only [Except.map] at hqr
        injection hqr with hqr2
        have hprops := attributeToValue_ok_props q.2 v hasp hasemi hav
        rw [← hqr2]
        exact ⟨hgk, hprops.1, hprops.2⟩
    · rw [hkeys]
      exact foldl_odInsert_keys_nodup pairs [] List.nodup_nil

/-- C2 counterexample: the raw column-9 text `k v";` decodes successfully to
the map `k ↦ "v\"" ` (a string value ending in a double quote, because the
token does not start with a quote and so is kept verbatim); re-encoding wraps
it in quotes and the second decode strips ALL edge quotes, returning the
different value `v` — so decode ∘ encode is not the identity on all
decoder-produced maps. -/
theorem c2_counterexample_trailing_quote :
    column9Dict "k v\";".data = .ok [("k".data, .str "v\"".data)]
    ∧ column9Dict (attrString [("k".data, .str "v\"".data)])
        = .ok [("k".data, .str "v".data)]
    ∧ AttrValue.str "v".data ≠ .str "v\"".data :=
  ⟨rfl, rfl, by decide⟩

/-- C2 (amended): for every attribute map `m` obtained by a successful decode
of some raw column-9 string, re-decoding the encoding of `m` yields `m` again
(same keys, order and typed values) PROVIDED no string value of `m` ends in a
double quote; decoder outputs can end in a quote (see the counterexample) and
those maps do not round-trip because the encoder's added quotes are stripped
together with the value's own trailing quote. -/
theorem c2_amended_round_trip (raw : Str) (m : AttrMap)
    (hdec : column9Dict raw = .ok m)
    (htail : ∀ p ∈ m, ∀ s, p.2 = .str s →
      ∀ c, s.getLast? = some c → c ≠ '"') :
    column9Dict (attrString m) = .ok m := by
  obtain ⟨hgood, hnd⟩ := column9Dict_ok_good raw m hdec
  refine column9Dict_attrString m ?_ hnd
  intro p hp
  obtain ⟨hk, hstr, hflt⟩ := hgood p hp
  refine ⟨hk, ?_⟩
  cases hv : p.2 with
  | str s =>
    obtain ⟨h1, h2, h3⟩ := hstr s hv
    exact ⟨h1, h2, h3, htail p hp s hv⟩
  | int n => trivial
  | flt g => exact hflt g hv

/-- C2 witness: the map decoded from `gene_id "G1"; cov 5;` (a string value
and an integer value, neither string ending in a quote) survives the
encode/decode round trip unchanged. -/
theorem c2_amended_round_trip_witness :
    column9Dict (attrString [("gene_id".data, AttrValue.str "G1".data),
        ("cov".data, AttrValue.int 5)])
      = .ok [("gene_id".data, .str "G1".data), ("cov".data, .int 5)] := by
  refine c2_amended_round_trip "gene_id \"G1\"; cov 5;".data
    [("gene_id".data, .str "G1".data), ("cov".data, .int 5)] (by rfl) ?_
  intro p hp s hs c hc
  rcases List.mem_cons.1 hp with rfl | hp2
  · injection hs with hs2
    rw [← hs2] at hc
    rw [show ("G1".data : Str).getLast? = some '1' from rfl] at hc
    injection hc with hc2
    rw [← hc2]
    decide
  · rcases List.mem_cons.1 hp2 with rfl | hp3
    · cases hs
    · cases hp3

theorem tab_notin_intStr (n : Int) : '\t' ∉ intStr n := by
  intro hm
  rcases mem_intStr n '\t' hm with hd | hd
  · exact absurd hd (by decide)
  · exact absurd hd (by decide)

theorem tab_notin_floatPrint (f : PyFloat) : '\t' ∉ floatPrint f := by
  intro hm
  have h := (floatPrint_safe f '\t' hm).1
  exact absurd h (by decide)

theorem strictKey_goodKey (k : Str) (h : strictKey k) : goodKey k := by
  obtain ⟨h0, hall⟩ := h
  refine ⟨h0, ?_, ?_, ?_⟩
  · intro hm
    exact absurd (hall ' ' hm).1 (by decide)
  · intro hm
    exact (hall ';' hm).2 rfl
  · intro c hc
    exact (hall c (head?_mem k c hc)).1

theorem strictVal_goodVal (v : AttrValue) (h : strictVal v) : goodVal v := by
  cases v with
  | str s =>
    obtain ⟨hall, hh, ht⟩ := h
    refine ⟨?_, ?_, hh, ht⟩
    · intro hm
      exact absurd (hall ' ' hm).1 (by decide)
    · intro hm
      exact (hall ';' hm).2 rfl
  | int n => trivial
  | flt g => exact h

theorem valueToAttribute_no_tab (v : AttrValue) (hv : strictVal v) :
    '\t' ∉ valueToAttribute v := by
  cases v with
  | str s =>
    intro hm
    rcases List.mem_cons.1 hm with hc | hc
    · exact absurd hc (by decide)
    · rcases List.mem_append.1 hc with hc2 | hc2
      · exact absurd (hv.1 '\t' hc2).1 (by decide)
      · rw [List.mem_singleton] at hc2
        exact absurd hc2 (by decide)
  | int n => exact tab_notin_intStr n
  | flt g => exact tab_notin_floatPrint g

theorem mem_joinPairs :
    ∀ (l : List Str) (x : Char), x ∈ joinPairs l →
      (∃ p ∈ l, x ∈ p) ∨ x = ';' ∨ x = ' ' := by
  intro l
  induction l with
  | nil =>
    intro x hx
    cases hx
  | cons p t ih =>
    intro x hx
    cases t with
    | nil =>
      refine Or.inl ⟨p, List.mem_cons_self p [], ?_⟩
      exact hx
    | cons q t2 =>
      rw [show joinPairs (p :: q :: t2) = p ++ ';' :: ' ' :: joinPairs (q :: t2)
        from rfl] at hx
      rcases List.mem_append.1 hx with h1 | h1
      · exact Or.inl ⟨p, List.mem_cons_self _ _, h1⟩
      · rcases List.mem_cons.1 h1 with rfl | h2
        · exact Or.inr (Or.inl rfl)
        · rcases List.mem_cons.1 h2 with rfl | h3
          · exact Or.inr (Or.inr rfl)
          · rcases ih x h3 with ⟨r, hr, hxr⟩ | h4
            · exact Or.inl ⟨r, List.mem_cons_of_mem _ hr, hxr⟩
            · exact Or.inr h4

theorem attrString_no_tab (m : AttrMap)
    (h : ∀ p ∈ m, strictKey p.1 ∧ strictVal p.2) : '\t' ∉ attrString m := by
  cases m with
  | nil =>
    intro hm
    cases hm
  | cons p0 t =>
    intro hm
    rw [show attrString (p0 :: t)
        = joinPairs ((p0 :: t).map (fun p => p.1 ++ ' ' :: valueToAttribute p.2))
          ++ [';'] from rfl] at hm
    rcases List.mem_append.1 hm with h1 | h1
    · rcases mem_joinPairs _ '\t' h1 with ⟨piece, hpc, hxp⟩ | h2
      · rcases List.mem_map.1 hpc with ⟨p, hp, rfl⟩
        rcases List.mem_append.1 hxp with h3 | h3
        · exact absurd ((h p hp).1.2 '\t' h3).1 (by decide)
        · rcases List.mem_cons.1 h3 with hc | hc
          · exact absurd hc (by decide)
          · exact valueToAttribute_no_tab p.2 (h p hp).2 hc
      · rcases h2 with hc | hc
        · exact absurd hc (by decide)
        · exact absurd hc (by decide)
    · rw [List.mem_singleton] at h1
      exact absurd h1 (by decide)

theorem attrString_trim (m : AttrMap)
    (h : ∀ p ∈ m, strictKey p.1 ∧ strictVal p.2) :
    trimWs (attrString m) = attrString m := by
  cases m with
  | nil => rfl
  | cons p0 t =>
    refine trimWs_eq_self _ ?_ ?_
    · intro c hc
      rw [show attrString (p0 :: t)
          = joinPairs ((p0 :: t).map (fun p => p.1 ++ ' ' :: valueToAttribute p.2))
            ++ [';'] from rfl] at hc
      obtain ⟨hk0, hkall⟩ := (h p0 (List.mem_cons_self p0 t)).1
      cases hk : p0.1 with
      | nil => exact absurd hk hk0
      | cons k0 kt =>
        rw [List.map_cons, hk] at hc
        cases t with
        | nil =>
          rw [List.map_nil] at hc
          rw [show joinPairs [(k0 :: kt : Str) ++ ' ' :: valueToAttribute p0.2]
              = (k0 :: kt : Str) ++ ' ' :: valueToAttribute p0.2 from rfl] at hc
          rw [List.cons_append, List.cons_append] at hc
          injection hc with hc2
          rw [← hc2]
          exact (hkall k0 (by rw [hk]; exact List.mem_cons_self _ _)).1
        | cons q t2 =>
          rw [show joinPairs (((k0 :: kt : Str) ++ ' ' :: valueToAttribute p0.2)
                :: List.map (fun p => p.1 ++ ' ' :: valueToAttribute p.2) (q :: t2))
              = ((k0 :: kt : Str) ++ ' ' :: valueToAttribute p0.2)
                ++ ';' :: ' ' :: joinPairs
                  (List.map (fun p => p.1 ++ ' ' :: valueToAttribute p.2) (q :: t2))
              from rfl] at hc
          rw [List.cons_append, List.cons_append, List.cons_append] at hc
          injection hc with hc2
          rw [← hc2]
          exact (hkall k0 (by rw [hk]; exact List.mem_cons_self _ _)).1
    · intro c hc
      rw [show attrString (p0 :: t)
          = joinPairs ((p0 :: t).map (fun p => p.1 ++ ' ' :: valueToAttribute p.2))
            ++ [';'] from rfl, List.getLast?_concat] at hc
      injection hc with hc2
      rw [← hc2]
      decide

/-- C4 counterexample: `recC4` is a well-formed record (score the `.`
sentinel, frame the integer 0), yet parsing its rendering yields a record
whose frame is the raw text `0`, not the integer 0 — the score and frame
conversions share one try block, and the failing `float(".")` aborts it
before `int` runs. -/
theorem c4_counterexample_frame_coupling :
    RecordWF recC4
    ∧ getFields (toLine recC4) = .ok recC4out
    ∧ recC4out ≠ recC4 := by
  refine ⟨⟨⟨by decide, by decide⟩, ⟨by decide, by decide⟩, ⟨by decide, by decide⟩,
    ⟨by decide, by decide⟩, Or.inr rfl, Or.inl ⟨0, rfl⟩,
    fun p hp => absurd hp (List.not_mem_nil p), List.nodup_nil⟩,
    by rfl, by decide⟩

/-- C4 (amended): for every well-formed record, parsing the rendered line
returns the record unchanged in all nine fields PROVIDED the coupled
score/frame try block is not triggered asymmetrically: either the score is a
genuine float (then frame, integer or sentinel, survives), or score and frame
are both the `.` sentinel. A sentinel score next to an integer frame does not
round-trip (see the counterexample). -/
theorem c4_amended_round_trip (r : GffRecord) (hwf : RecordWF r)
    (hcouple : r.score = ScoreV.raw ['.'] → r.frame = FrameV.raw ['.']) :
    getFields (toLine r) = .ok r := by
  obtain ⟨hseq, hsrc, hfeat, hstrand, hscore, hframe, hattrs⟩ := hwf
  have htab4 : '\t' ∉ intStr r.start := tab_notin_intStr r.start
  have htab5 : '\t' ∉ intStr r.endp := tab_notin_intStr r.endp
  have htab6 : '\t' ∉ scoreStr r.score := by
    rcases hscore with ⟨f, hf, hc⟩ | hf
    · rw [hf]
      exact tab_notin_floatPrint f
    · rw [hf]
      decide
  have htab8 : '\t' ∉ frameStr r.frame := by
    rcases hframe with ⟨n, hn⟩ | hn
    · rw [hn]
      exact tab_notin_intStr n
    · rw [hn]
      decide
  have htab9 : '\t' ∉ attrString r.attributes := attrString_no_tab _ hattrs.1
  have htr6 : trimWs (scoreStr r.score) = scoreStr r.score := by
    rcases hscore with ⟨f, hf, hc⟩ | hf
    · rw [hf]
      exact floatPrint_trim f
    · rw [hf]
      decide
  have htr8 : trimWs (frameStr r.frame) = frameStr r.frame := by
    rcases hframe with ⟨n, hn⟩ | hn
    · rw [hn]
      exact intStr_trim n
    · rw [hn]
      decide
  have htr9 : trimWs (attrString r.attributes) = attrString r.attributes :=
    attrString_trim _ hattrs.1
  have hsf : scoreFrame (scoreStr r.score) (frameStr r.frame)
      = (r.score, r.frame) := by
    rcases hscore with ⟨f, hf, hc⟩ | hf
    · rw [hf]
      unfold scoreFrame
      rw [show scoreStr (ScoreV.flt f) = floatPrint f from rfl]
      rw [floatParse_floatPrint f hc]
      rcases hframe with ⟨n, hn⟩ | hn
      · rw [hn]
        rw [show frameStr (FrameV.int n) = intStr n from rfl]
        rw [pyIntParse_intStr n]
      · rw [hn]
        rfl
    · have hfr := hcouple hf
      rw [hf, hfr]
      rfl
  have hgoods : ∀ p ∈ r.attributes, goodKey p.1 ∧ goodVal p.2 := by
    intro p hp
    exact ⟨strictKey_goodKey _ (hattrs.1 p hp).1,
      strictVal_goodVal _ (hattrs.1 p hp).2⟩
  have hsplit : splitCh '\t' (toLine r)
      = [r.seqname, r.source, r.feature, intStr r.start, intStr r.endp,
         scoreStr r.score, r.strand, frameStr r.frame,
         attrString r.attributes] := by
    have hassoc : toLine r
        = r.seqname ++ '\t' :: (r.source ++ '\t' :: (r.feature
          ++ '\t' :: (intStr r.start ++ '\t' :: (intStr r.endp
          ++ '\t' :: (scoreStr r.score ++ '\t' :: (r.strand
          ++ '\t' :: (frameStr r.frame
          ++ '\t' :: attrString r.attributes))))))) := by
      unfold toLine
      simp [List.append_assoc]
    rw [hassoc]
    rw [splitCh_append '\t' _ _ hseq.1, splitCh_append '\t' _ _ hsrc.1,
      splitCh_append '\t' _ _ hfeat.1, splitCh_append '\t' _ _ htab4,
      splitCh_append '\t' _ _ htab5, splitCh_append '\t' _ _ htab6,
      splitCh_append '\t' _ _ hstrand.1, splitCh_append '\t' _ _ htab8,
      splitCh_not_mem '\t' _ htab9]
  unfold getFields
  rw [hsplit, List.map_cons, List.map_cons, List.map_cons, List.map_cons,
    List.map_cons, List.map_cons, List.map_cons, List.map_cons, List.map_cons,
    List.map_nil]
  rw [hseq.2, hsrc.2, hfeat.2, intStr_trim, intStr_trim, htr6, hstrand.2,
    htr8, htr9]
  simp only []
  rw [if_pos (show ([r.seqname, r.source, r.feature, intStr r.start,
      intStr r.endp, scoreStr r.score, r.strand, frameStr r.frame,
      attrString r.attributes] : List Str).length = 9 from rfl)]
  rw [show ([r.seqname, r.source, r.feature, intStr r.start, intStr r.endp,
      scoreStr r.score, r.strand, frameStr r.frame, attrString r.attributes]
      : List Str).getD 8 [] = attrString r.attributes from rfl]
  rw [column9Dict_attrString r.attributes hgoods hattrs.2]
  rw [show ([r.seqname, r.source, r.feature, intStr r.start, intStr r.endp,
      scoreStr r.score, r.strand, frameStr r.frame, attrString r.attributes]
      : List Str).getD 3 [] = intStr r.start from rfl]
  rw [pyIntParse_intStr r.start]
  rw [show ([r.seqname, r.source, r.feature, intStr r.start, intStr r.endp,
      scoreStr r.score, r.strand, frameStr r.frame, attrString r.attributes]
      : List Str).getD 4 [] = intStr r.endp from rfl]
  rw [pyIntParse_intStr r.endp]
  rw [show ([r.seqname, r.source, r.feature, intStr r.start, intStr r.endp,
      scoreStr r.score, r.strand, frameStr r.frame, attrString r.attributes]
      : List Str).getD 5 [] = scoreStr r.score from rfl]
  rw [show ([r.seqname, r.source, r.feature, intStr r.start, intStr r.endp,
      scoreStr r.score, r.strand, frameStr r.frame, attrString r.attributes]
      : List Str).getD 7 [] = frameStr r.frame from rfl]
  rw [hsf]
  rfl

/-- C4 witness: the concrete well-formed record `recC4w` (score and frame
both the `.` sentinel) satisfies the amended round trip. -/
theorem c4_amended_round_trip_witness :
    RecordWF recC4w ∧ getFields (toLine recC4w) = .ok recC4w := by
  have hwf : RecordWF recC4w := ⟨⟨by decide, by decide⟩, ⟨by decide, by decide⟩,
    ⟨by decide, by decide⟩, ⟨by decide, by decide⟩,
    Or.inr rfl, Or.inr rfl, fun p hp => absurd hp (List.not_mem_nil p),
    List.nodup_nil⟩
  exact ⟨hwf, c4_amended_round_trip recC4w hwf (fun _ => rfl)⟩
